import Mathlib

/-!
# orchestra-mcp/markdown: sanitizer, structural extractors and render pipeline

A shallow embedding of `src/parser/sanitize.go`, `src/parser/parser.go` and
`src/service/service.go`.

Go strings are modelled as `List Char` (the text of a valid UTF-8 string, one
`Char` per rune).  The HTML parser and serialiser of `golang.org/x/net/html`
are library code: the sanitizer is modelled from the parsed node forest on,
and `render1` follows the library's serialiser.  `unicode.ToLower` is a library
table and is taken as a parameter `lower : Char → Char`; closed evaluations use
`asciiLower`, which agrees with it on ASCII.  The regular expressions
`headingRe` and `codeBlockRe` are modelled by matchers that try their greedy
parts longest first and their lazy part shortest first, as Go's leftmost-first
matching does.  In the pipeline, goldmark's `Convert` is the field `md` of the
parser and `html.ParseFragment` is a parameter; a nil slice or map is `none`.
-/

namespace Markdown

/-! ## Go string primitives -/

/-- Go `unicode.IsSpace`: the Latin-1 white space and the `White_Space` table. -/
def isSpace (c : Char) : Bool :=
  let n := c.toNat
  n == 0x09 || n == 0x0A || n == 0x0B || n == 0x0C || n == 0x0D || n == 0x20 ||
  n == 0x85 || n == 0xA0 || n == 0x1680 || (0x2000 ≤ n && n ≤ 0x200A) ||
  n == 0x2028 || n == 0x2029 || n == 0x202F || n == 0x205F || n == 0x3000

/-- Go `strings.TrimSpace`: drop leading and trailing white space. -/
def TrimSpace (s : List Char) : List Char :=
  ((s.dropWhile isSpace).reverse.dropWhile isSpace).reverse

/-- Go `strings.HasPrefix`. -/
def HasPrefix (s p : List Char) : Bool := p.isPrefixOf s

/-- Go `strings.ToLower`, rune by rune through `unicode.ToLower` (`lower`). -/
def ToLower (lower : Char → Char) (s : List Char) : List Char := s.map lower

/-- The ASCII part of `unicode.ToLower`. -/
def asciiLower (c : Char) : Char := c.toLower

/-! ## HTML node forest (`golang.org/x/net/html`) -/

/-- An `html.Attribute` in no namespace (`Namespace` is empty, as for every
attribute of an HTML element; the prefixed attributes of svg and math elements
are outside this model). -/
structure Attribute where
  Key : List Char
  Val : List Char
  deriving DecidableEq, Repr

/-- The `html.NodeType`s other than `ElementNode` and `TextNode`. -/
inductive OtherType where
  | ErrorNode | DocumentNode | CommentNode | DoctypeNode | RawNode
  deriving DecidableEq, Repr

/-- An `html.Node` with its subtree.  `Data` is the tag name of an element (the
parser sets `DataAtom` to the atom of that name, or to 0 when it has none), the
text of a text node, the content of a comment.  Only elements have children.
The elements are those of the HTML namespace (`Namespace` is empty); svg and
math content is outside this model. -/
inductive Node where
  | element (Data : List Char) (Attr : List Attribute) (children : List Node)
  | text (Data : List Char)
  | other (Kind : OtherType) (Data : List Char)
  deriving Repr

/-- Tags of `dropEntireSubtree`: the whole subtree is removed. -/
def dropEntireSubtree (tag : List Char) : Bool :=
  tag ∈ ["script", "style", "iframe", "object", "embed", "applet",
    "noscript"].map String.toList

/-- Tags of `allowedTags`: the tags that survive sanitization. -/
def allowedTags (tag : List Char) : Bool :=
  tag ∈ ["a", "abbr", "b", "blockquote", "br", "code", "dd", "del",
    "details", "div", "dl", "dt", "em", "h1", "h2", "h3",
    "h4", "h5", "h6", "hr", "i", "img", "ins", "kbd",
    "li", "ol", "p", "pre", "q", "s", "samp", "small",
    "span", "strong", "sub", "summary", "sup", "table", "tbody", "td",
    "tfoot", "th", "thead", "tr", "u", "ul", "var"].map String.toList

/-- Keys of `safeAttrs`: attributes kept on allowed tags. -/
def safeAttrs (key : List Char) : Bool :=
  key ∈ ["href", "src", "alt", "title", "class", "id", "width", "height",
    "colspan", "rowspan", "align"].map String.toList

/-- The loop body of `cleanAttrs`: is `attr` appended to `kept`? -/
def keepAttr (lower : Char → Char) (attr : Attribute) : Bool :=
  let key := ToLower lower attr.Key
  if HasPrefix key "on".toList then false
  else if !safeAttrs key then false
  else if (key == "href".toList || key == "src".toList) &&
      (let val := TrimSpace (ToLower lower attr.Val)
       HasPrefix val "javascript:".toList || HasPrefix val "data:".toList) then false
  else true

/-- Go `cleanAttrs`: the new value of `n.Attr`. -/
def cleanAttrs (lower : Char → Char) : List Attribute → List Attribute
  | [] => []
  | attr :: rest =>
    if keepAttr lower attr then attr :: cleanAttrs lower rest else cleanAttrs lower rest

/-- Go `promoteChildren(parent, child)`, as the nodes that stand in the place
of `child` in `parent` afterwards: the children of `child`, in their order. -/
def promoteChildren (children : List Node) : List Node := children

mutual
/-- The body of the loop of `walkAndClean` for the child `c`: the nodes that
stand in the place of `c` afterwards.  The loop read `next = c.NextSibling`
before it handled `c` and goes on at that node, so the children that
`promoteChildren` has put in front of `c` are not visited. -/
def walkChild (lower : Char → Char) : Node → List Node
  | Node.element tag attr kids =>
    if dropEntireSubtree tag then []
    else if !allowedTags tag then promoteChildren kids
    else [Node.element tag (cleanAttrs lower attr) (walkAndClean lower kids)]
  | Node.text d => [Node.text d]
  | Node.other _ _ => []
/-- Go `walkAndClean`, as the new child list of `n`. -/
def walkAndClean (lower : Char → Char) : List Node → List Node
  | [] => []
  | c :: next => walkChild lower c ++ walkAndClean lower next
end

mutual
/-- Go `renderClean`, as the list of nodes it passes to `html.Render`, in the
order in which they are written to `buf`. -/
def renderClean (lower : Char → Char) : Node → List Node
  | Node.element tag attr kids =>
    if dropEntireSubtree tag then []
    else if !allowedTags tag then renderCleanEach lower kids
    else [Node.element tag (cleanAttrs lower attr) (walkAndClean lower kids)]
  | Node.text d => [Node.text d]
  | Node.other _ _ => []
/-- The loops `for ... { renderClean(buf, c) }` over a list of siblings. -/
def renderCleanEach (lower : Char → Char) : List Node → List Node
  | [] => []
  | c :: rest => renderClean lower c ++ renderCleanEach lower rest
end

/-- The forest that `Sanitize` serialises for the parsed fragment `nodes`. -/
def SanitizeNodes (lower : Char → Char) (nodes : List Node) : List Node :=
  renderCleanEach lower nodes

/-! ## Serialisation (`html.Render`) -/

/-- The library's `escape`: the replacements of `& ' < > " \r`. -/
def escape : List Char → List Char
  | [] => []
  | c :: rest =>
    (if c = '&' then "&amp;".toList
     else if c = Char.ofNat 39 then "&#39;".toList
     else if c = '<' then "&lt;".toList
     else if c = '>' then "&gt;".toList
     else if c = '"' then "&#34;".toList
     else if c = '\r' then "&#13;".toList
     else [c]) ++ escape rest

/-- The library's `escapeComment`: `&` is escaped, and `>` is escaped at the
start of the data and after `!` or `-` (`prev` is the character before). -/
def escapeComment : Option Char → List Char → List Char
  | _, [] => []
  | prev, c :: rest =>
    (if c = '&' then "&amp;".toList
     else if c = '>' ∧ (prev = none ∨ prev = some '!' ∨ prev = some '-') then "&gt;".toList
     else [c]) ++ escapeComment (some c) rest

/-- The library's `voidElements`. -/
def voidElements (tag : List Char) : Bool :=
  tag ∈ ["area", "base", "br", "col", "embed", "hr", "img", "input", "keygen",
    "link", "meta", "param", "source", "track", "wbr"].map String.toList

/-- The library's `childTextNodesAreLiteral`. -/
def childTextNodesAreLiteral (tag : List Char) : Bool :=
  tag ∈ ["iframe", "noembed", "noframes", "noscript", "plaintext", "script",
    "style", "xmp"].map String.toList

/-- The attributes of an opening tag, as the library writes them. -/
def renderAttrs : List Attribute → List Char
  | [] => []
  | a :: rest => ' ' :: a.Key ++ "=\"".toList ++ escape a.Val ++ ['"'] ++ renderAttrs rest

/-- Is the first child a text node that starts with a line feed? -/
def startsWithNewline : List Node → Bool
  | Node.text ('\n' :: _) :: _ => true
  | _ => false

mutual
/-- The library's `render1`: the text written and whether it returned no error
(on an error the text written so far stays in the buffer). -/
def render1 : Node → List Char × Bool
  | Node.text d => (escape d, true)
  | Node.other OtherType.ErrorNode _ => ([], false)
  | Node.other OtherType.DocumentNode _ => ([], true)
  | Node.other OtherType.CommentNode d =>
    ("<!--".toList ++ escapeComment none d ++ "-->".toList, true)
  | Node.other OtherType.DoctypeNode d => ("<!DOCTYPE ".toList ++ escape d ++ ['>'], true)
  | Node.other OtherType.RawNode d => (d, true)
  | Node.element tag attr kids =>
    let start := '<' :: tag ++ renderAttrs attr
    if voidElements tag then
      (if kids.isEmpty then (start ++ "/>".toList, true) else (start, false))
    else
      let nl := if startsWithNewline kids &&
        (tag == "pre".toList || tag == "listing".toList || tag == "textarea".toList)
        then ['\n'] else []
      let body := renderChildren (childTextNodesAreLiteral tag) kids
      if body.2 && tag != "plaintext".toList then
        (start ++ ['>'] ++ nl ++ body.1 ++ "</".toList ++ tag ++ ['>'], true)
      else (start ++ ['>'] ++ nl ++ body.1, false)
/-- The child loop of `render1`; it stops at the first error. -/
def renderChildren (literal : Bool) : List Node → List Char × Bool
  | [] => ([], true)
  | c :: rest =>
    let r := match literal, c with
      | true, Node.text d => (d, true)
      | _, c => render1 c
    if r.2 then ((r.1 ++ (renderChildren literal rest).1), (renderChildren literal rest).2)
    else (r.1, false)
end

/-- What `buf` holds after `html.Render` was called on each node in turn. -/
def renderAll : List Node → List Char
  | [] => []
  | n :: rest => (render1 n).1 ++ renderAll rest

/-- Go `HTMLSanitizer.Sanitize` from the parsed fragment on (`nodes` is the
result of `html.ParseFragment`, which does not fail on a string): each node is
passed to `renderClean` and the buffer is trimmed. -/
def Sanitize (lower : Char → Char) (nodes : List Node) : List Char :=
  TrimSpace (renderAll (SanitizeNodes lower nodes))

/-! ## Observations on forests -/

mutual
/-- Is there an element of the drop-subtree set in the subtree of the node? -/
def Node.hasDropTag : Node → Bool
  | Node.element tag _ kids => dropEntireSubtree tag || anyDropTag kids
  | Node.text _ => false
  | Node.other _ _ => false
/-- Is there an element of the drop-subtree set anywhere in the forest? -/
def anyDropTag : List Node → Bool
  | [] => false
  | c :: rest => c.hasDropTag || anyDropTag rest
end

/-- Does the attribute name begin with `on`, in any letter case? -/
def beginsWithOn (key : List Char) : Bool :=
  match key with
  | c :: d :: _ => (c == 'o' || c == 'O') && (d == 'n' || d == 'N')
  | _ => false

mutual
/-- Is there an attribute whose name begins with `on` in the subtree? -/
def Node.hasOnAttr : Node → Bool
  | Node.element _ attr kids => attr.any (fun a => beginsWithOn a.Key) || anyOnAttr kids
  | Node.text _ => false
  | Node.other _ _ => false
/-- Is there an attribute whose name begins with `on` anywhere in the forest? -/
def anyOnAttr : List Node → Bool
  | [] => false
  | c :: rest => c.hasOnAttr || anyOnAttr rest
end

mutual
/-- Is there a node that is neither an element nor a text in the subtree? -/
def Node.hasOther : Node → Bool
  | Node.element _ _ kids => anyOther kids
  | Node.text _ => false
  | Node.other _ _ => true
/-- Is there a node that is neither an element nor a text in the forest? -/
def anyOther : List Node → Bool
  | [] => false
  | c :: rest => c.hasOther || anyOther rest
end

mutual
/-- The text nodes of the subtree, in document order. -/
def Node.texts : Node → List (List Char)
  | Node.element _ _ kids => textsEach kids
  | Node.text d => [d]
  | Node.other _ _ => []
/-- The text nodes of the forest, in document order. -/
def textsEach : List Node → List (List Char)
  | [] => []
  | c :: rest => c.texts ++ textsEach rest
end

mutual
/-- The text nodes of the subtree that are not inside an element of the
drop-subtree set, in document order. -/
def Node.safeTexts : Node → List (List Char)
  | Node.element tag _ kids => if dropEntireSubtree tag then [] else safeTextsEach kids
  | Node.text d => [d]
  | Node.other _ _ => []
/-- The text nodes of the forest with no drop-subtree ancestor. -/
def safeTextsEach : List Node → List (List Char)
  | [] => []
  | c :: rest => c.safeTexts ++ safeTextsEach rest
end

mutual
/-- Does the subtree hold only text nodes and allowed elements, the void
elements among them without children? -/
def Node.plain : Node → Bool
  | Node.element tag _ kids =>
    allowedTags tag && (!voidElements tag || kids.isEmpty) && plainEach kids
  | Node.text _ => true
  | Node.other _ _ => false
/-- Does the forest hold only text nodes and allowed elements? -/
def plainEach : List Node → Bool
  | [] => true
  | c :: rest => c.plain && plainEach rest
end

/-- The strings `parts` occur in `s` one after the other, without overlap. -/
def occursInOrder : List (List Char) → List Char → Prop
  | [], _ => True
  | p :: ps, s => ∃ a b : List Char, s = a ++ p ++ b ∧ occursInOrder ps b

/-- An element without attributes. -/
def el (tag : String) (kids : List Node) : Node := Node.element tag.toList [] kids

/-- A text node. -/
def txt (d : String) : Node := Node.text d.toList

/-- The parsed fragment of
`<div><section><script>alert(1)</script><img src="x" onerror="alert(1)"></section></div>`. -/
def promotedScript : List Node :=
  [el "div" [el "section" [el "script" [txt "alert(1)"],
    Node.element "img".toList [⟨"src".toList, "x".toList⟩, ⟨"onerror".toList, "alert(1)".toList⟩] []]]]

/-- The parsed fragment of `<div><section><!--x--></section></div>`. -/
def promotedComment : List Node :=
  [el "div" [el "section" [Node.other OtherType.CommentNode "x".toList]]]

/-- The attribute test of C3 in the words of the claim: the lower-cased name is
one of the eleven safe names and, for `href` and `src`, the lower-cased and
trimmed value begins with neither `javascript:` nor `data:`. -/
def keptBySpec (lower : Char → Char) (a : Attribute) : Bool :=
  let name := a.Key.map lower
  let value := TrimSpace (a.Val.map lower)
  decide (name ∈ ["href".toList, "src".toList, "alt".toList, "title".toList,
    "class".toList, "id".toList, "width".toList, "height".toList, "colspan".toList,
    "rowspan".toList, "align".toList]) &&
  !((name == "href".toList || name == "src".toList) &&
    ("javascript:".toList.isPrefixOf value || "data:".toList.isPrefixOf value))

/-! ## Frontmatter splitter (`ExtractFrontmatter`) -/

/-- Go `strings.Index(s, substr)`: the offset of the first occurrence of
`substr` in `s`; `none` stands for the result -1. -/
def Index : List Char → List Char → Option Nat
  | [], substr => if substr.isEmpty then some 0 else none
  | c :: rest, substr =>
    if substr.isPrefixOf (c :: rest) then some 0
    else (Index rest substr).map (fun i => i + 1)

/-- Go `strings.Split(s, sep)` for a separator `sep` of one character. -/
def Split (sep : Char) : List Char → List (List Char)
  | [] => [[]]
  | c :: rest =>
    if c = sep then [] :: Split sep rest
    else match Split sep rest with
      | [] => [[c]]
      | l :: ls => (c :: l) :: ls

/-- Go `strings.SplitN(s, sep, 2)` for a non-empty `sep`: one part when `sep`
does not occur, else the text before and the text after its first occurrence. -/
def SplitN2 (s sep : List Char) : List (List Char) :=
  match Index s sep with
  | none => [s]
  | some i => [s.take i, s.drop (i + sep.length)]

/-- A Go `map[string]string`, as a list of entries with distinct keys. -/
abbrev StrMap := List (List Char × List Char)

/-- The assignment `m[key] = val`. -/
def StrMap.set (m : StrMap) (key val : List Char) : StrMap :=
  (key, val) :: m.filter (fun e => e.1 != key)

/-- The lookup `m[key]`, `none` when the key is absent. -/
def StrMap.get (m : StrMap) (key : List Char) : Option (List Char) :=
  m.lookup key

/-- The loop over the lines of the block in `ExtractFrontmatter`. -/
def parseLines : List (List Char) → StrMap → StrMap
  | [], metadata => metadata
  | line :: rest, metadata =>
    match SplitN2 line ":".toList with
    | [p0, p1] =>
      let key := TrimSpace p0
      let val := TrimSpace p1
      if key ≠ [] then parseLines rest (metadata.set key val)
      else parseLines rest metadata
    | _ => parseLines rest metadata

/-- Go `MarkdownParser.ExtractFrontmatter`: the metadata (`none` for the nil
map) and the body. -/
def ExtractFrontmatter (input : List Char) : Option StrMap × List Char :=
  let s := input
  if !HasPrefix s "---\n".toList then (none, input)
  else
    match Index (s.drop 4) "\n---".toList with
    | none => (none, input)
    | some e =>
      let block := (s.drop 4).take e
      let body := s.drop (4 + e + 4)
      (some (parseLines (Split '\n' block) []), body)

/-! ## Table of contents (`ExtractTOC`, `slugify`) -/

/-- The class `\s` of Go regular expressions: tab, line feed, form feed,
carriage return and space. -/
def reSpace (c : Char) : Bool :=
  c == '\t' || c == '\n' || c == Char.ofNat 12 || c == '\r' || c == ' '

/-- Go `strings.Trim(s, cutset)`. -/
def Trim (s cutset : List Char) : List Char :=
  ((s.dropWhile (fun c => cutset.contains c)).reverse.dropWhile
    (fun c => cutset.contains c)).reverse

/-- The characters that the class `[^a-z0-9\s-]` of `slugify` does not match. -/
def slugChar (c : Char) : Bool :=
  ('a'.toNat ≤ c.toNat && c.toNat ≤ 'z'.toNat) ||
  ('0'.toNat ≤ c.toNat && c.toNat ≤ '9'.toNat) || reSpace c || c == '-'

/-- `ReplaceAllString` of the pattern `\s+` by `-`: each maximal run of white
space becomes one hyphen (`inRun`: the character before was white space). -/
def replaceSpaceRuns (inRun : Bool) : List Char → List Char
  | [] => []
  | c :: rest =>
    if reSpace c then
      (if inRun then replaceSpaceRuns true rest else '-' :: replaceSpaceRuns true rest)
    else c :: replaceSpaceRuns false rest

/-- Go `slugify`. -/
def slugify (lower : Char → Char) (s : List Char) : List Char :=
  let s1 := ToLower lower s
  let s2 := s1.filter slugChar
  let s3 := replaceSpaceRuns false s2
  Trim s3 "-".toList

/-- A `types.TOCEntry`. -/
structure TOCEntry where
  Level : Nat
  Text : List Char
  ID : List Char
  deriving DecidableEq, Repr

/-- The part `(.+)$` of `headingRe` at the head of `s`: the greedy `.+` takes
every character up to the next line feed or the end of the text, where `$`
holds in multi-line mode; it needs one character at least. -/
def matchText (s : List Char) : Option (List Char) :=
  let t := s.takeWhile (fun c => c != '\n')
  if t.isEmpty then none else some t

/-- The part `\s+(.+)$` of `headingRe` at the head of `s`: the greedy `\s+` is
tried with `w` characters, then with fewer, down to one; `s` begins with `w`
white-space characters.  The result is the number of them taken and `m[2]`. -/
def matchSpaceText (s : List Char) : Nat → Option (Nat × List Char)
  | 0 => none
  | w + 1 =>
    match matchText (s.drop (w + 1)) with
    | some t => some (w + 1, t)
    | none => matchSpaceText s w

/-- The part `(#{1,6})\s+(.+)$` of `headingRe` at the head of `s`: the greedy
`#{1,6}` is tried with `h` characters, then with fewer, down to one; `s` begins
with `h` hash signs.  The result is `len(m[1])`, `m[2]` and the length of the
whole match. -/
def matchHashes (s : List Char) : Nat → Option (Nat × List Char × Nat)
  | 0 => none
  | h + 1 =>
    match matchSpaceText (s.drop (h + 1))
        ((s.drop (h + 1)).takeWhile reSpace).length with
    | some (w, t) => some (h + 1, t, h + 1 + w + t.length)
    | none => matchHashes s h

/-- The pattern `headingRe` without its `^`, matched at the head of `s`. -/
def matchHeading (s : List Char) : Option (Nat × List Char × Nat) :=
  matchHashes s (min 6 (s.takeWhile (fun c => c == '#')).length)

/-- The call `headingRe.FindAllSubmatch(input, -1)`, as the pairs of `len(m[1])`
and `m[2]`: the successive matches from left to right that do not overlap.
`skip` counts the characters of the last match still to pass, `atLineStart`
says whether `^` holds here (start of the text or after a line feed). -/
def findAllHeadings : Nat → Bool → List Char → List (Nat × List Char)
  | _, _, [] => []
  | 0, true, c :: rest =>
    match matchHeading (c :: rest) with
    | some (h, t, n) => (h, t) :: findAllHeadings (n - 1) (c == '\n') rest
    | none => findAllHeadings 0 (c == '\n') rest
  | 0, false, c :: rest => findAllHeadings 0 (c == '\n') rest
  | k + 1, _, c :: rest => findAllHeadings k (c == '\n') rest

/-- Go `MarkdownParser.ExtractTOC`. -/
def ExtractTOC (lower : Char → Char) (input : List Char) : List TOCEntry :=
  (findAllHeadings 0 true input).map (fun m =>
    let text := TrimSpace m.2
    { Level := m.1, Text := text, ID := slugify lower text })

/-! ## The claims' own notions -/

/-- The text of a line before its first colon, trimmed. -/
def lineKey (line : List Char) : List Char :=
  TrimSpace (line.takeWhile (fun c => c != ':'))

/-- The text of a line after its first colon, trimmed. -/
def lineVal (line : List Char) : List Char :=
  TrimSpace ((line.dropWhile (fun c => c != ':')).drop 1)

/-- The last line that contains a colon and whose text before the first colon
trims to `k`. -/
def lastLineFor (k : List Char) (lines : List (List Char)) : Option (List Char) :=
  (lines.filter (fun l => l.contains ':' && lineKey l == k)).getLast?

/-- The level of a line that is an ATX heading in the words of the claim: 1 to
6 hash signs at the start of the line, then a white-space character, then
heading text up to the end of the line; `none` for any other line. -/
def atxLevel (line : List Char) : Option Nat :=
  let h := (line.takeWhile (fun c => c == '#')).length
  match line.drop h with
  | w :: _ :: _ => if 1 ≤ h && h ≤ 6 && reSpace w then some h else none
  | _ => none

/-- The levels of the ATX heading lines of a source, in order of appearance. -/
def atxLevels (input : List Char) : List Nat :=
  (Split '\n' input).filterMap atxLevel

/-- The characters a slug is made of, in the words of the claim: a to z, 0 to
9 and the hyphen. -/
def slugAlphabet (c : Char) : Bool :=
  ('a'.toNat ≤ c.toNat && c.toNat ≤ 'z'.toNat) ||
  ('0'.toNat ≤ c.toNat && c.toNat ≤ '9'.toNat) || c == '-'

/-! ## Fenced code blocks (`ExtractCodeBlocks`) -/

/-- A `types.CodeBlock`. -/
structure CodeBlock where
  Language : List Char
  Code : List Char
  LineCount : Nat
  deriving DecidableEq, Repr

/-- The class `\w` of Go regular expressions: `[0-9A-Za-z_]`. -/
def reWord (c : Char) : Bool :=
  ('0'.toNat ≤ c.toNat && c.toNat ≤ '9'.toNat) ||
  ('A'.toNat ≤ c.toNat && c.toNat ≤ 'Z'.toNat) ||
  ('a'.toNat ≤ c.toNat && c.toNat ≤ 'z'.toNat) || c == '_'

/-- The three backticks of a fence. -/
def fence : List Char := ['`', '`', '`']

/-- Go `strings.Count(s, substr)` for a `substr` of one character. -/
def Count (s : List Char) (c : Char) : Nat := s.count c

/-- The part `(.*?)^` and three backticks of `codeBlockRe` at the head of `s`:
the lazy `.*?` (with the flag `s` the dot matches line feeds too) is tried with
no character, then with one more at a time, until `^` holds (`atLineStart`:
start of the text or after a line feed) and three backticks follow.  The result
is `m[2]`. -/
def matchCode : Bool → List Char → Option (List Char)
  | _, [] => none
  | atLineStart, c :: rest =>
    if atLineStart && fence.isPrefixOf (c :: rest) then some []
    else (matchCode (c == '\n') rest).map (fun code => c :: code)

/-- The part of `codeBlockRe` after the opening backticks, with `w` characters
for `\w*`: a line feed has to follow them, then `matchCode` runs at the start
of the next line.  The result is `m[1]` and `m[2]`. -/
def matchLangAt (s : List Char) (w : Nat) : Option (List Char × List Char) :=
  match s.drop w with
  | '\n' :: rest => (matchCode true rest).map (fun code => (s.take w, code))
  | _ => none

/-- The greedy `\w*` of `codeBlockRe`: tried with `w` characters, then with
fewer, down to none; `s` begins with `w` word characters. -/
def matchLang (s : List Char) : Nat → Option (List Char × List Char)
  | 0 => matchLangAt s 0
  | w + 1 =>
    match matchLangAt s (w + 1) with
    | some r => some r
    | none => matchLang s w

/-- The pattern `codeBlockRe` without its first `^`, matched at the head of
`s`: `m[1]`, `m[2]` and the length of the whole match. -/
def matchFence (s : List Char) : Option (List Char × List Char × Nat) :=
  if fence.isPrefixOf s then
    match matchLang (s.drop 3) ((s.drop 3).takeWhile reWord).length with
    | some (lang, code) => some (lang, code, 3 + lang.length + 1 + code.length + 3)
    | none => none
  else none

/-- The call `codeBlockRe.FindAllSubmatch(input, -1)`, as the pairs of `m[1]`
and `m[2]`: the successive matches from left to right that do not overlap.
`skip` counts the characters of the last match still to pass, `atLineStart`
says whether `^` holds here. -/
def findAllFences : Nat → Bool → List Char → List (List Char × List Char)
  | _, _, [] => []
  | 0, true, c :: rest =>
    match matchFence (c :: rest) with
    | some (lang, code, n) => (lang, code) :: findAllFences (n - 1) (c == '\n') rest
    | none => findAllFences 0 (c == '\n') rest
  | 0, false, c :: rest => findAllFences 0 (c == '\n') rest
  | k + 1, _, c :: rest => findAllFences k (c == '\n') rest

/-- Go `MarkdownParser.ExtractCodeBlocks`. -/
def ExtractCodeBlocks (input : List Char) : List CodeBlock :=
  (findAllFences 0 true input).map (fun m =>
    let code := m.2
    { Language := m.1, Code := code, LineCount := Count code '\n' + 1 })

/-! ## Render pipeline (`MarkdownParser.Render`, `MarkdownService`) -/

/-- A Go `error`: its message and the error it wraps, if any. -/
inductive GoError where
  | mk (message : List Char) (wrapped : Option GoError)

/-- The method `Error()`: the message. -/
def GoError.Error : GoError → List Char
  | GoError.mk message _ => message

/-- The method `Unwrap()`: the wrapped error. -/
def GoError.Unwrap : GoError → Option GoError
  | GoError.mk _ wrapped => wrapped

/-- The `types.RenderOptions`. -/
structure RenderOptions where
  SanitizeHTML : Bool
  EnableMermaid : Bool
  EnableMath : Bool
  EnableTOC : Bool
  CodeTheme : List Char

/-- A `types.RenderRequest`. -/
structure RenderRequest where
  Content : List Char
  Format : List Char
  Options : RenderOptions

/-- A `types.RenderResult`; `none` stands for a nil slice or a nil map. -/
structure RenderResult where
  HTML : List Char
  TOC : Option (List TOCEntry)
  Metadata : Option StrMap
  CodeBlocks : Option (List CodeBlock)

/-- A `MarkdownParser`.  The field `md` stands for `p.md.Convert(input, &buf)`
of the goldmark library: the error it returns, or what it wrote to `buf`. -/
structure MarkdownParser where
  md : List Char → Except GoError (List Char)
  opts : RenderOptions

/-- Go `len(m)` for a map that may be nil. -/
def lenMap : Option StrMap → Nat
  | none => 0
  | some m => m.length

/-- Go `MarkdownParser.Render`. -/
def MarkdownParser.Render (lower : Char → Char) (p : MarkdownParser) (input : List Char) :
    Except GoError RenderResult :=
  match p.md input with
  | Except.error err => Except.error err
  | Except.ok html =>
    let result : RenderResult :=
      { HTML := html, CodeBlocks := some (ExtractCodeBlocks input),
        TOC := none, Metadata := none }
    let result :=
      if p.opts.EnableTOC then { result with TOC := some (ExtractTOC lower input) }
      else result
    let metadata := (ExtractFrontmatter input).1
    let result :=
      if lenMap metadata > 0 then { result with Metadata := metadata } else result
    Except.ok result

/-- Go `len(s)` for a string: the number of bytes of its UTF-8 encoding. -/
def len (s : List Char) : Nat := (s.map Char.utf8Size).sum

/-- Go `HTMLSanitizer.Sanitize` from the raw string on.  `ParseFragment` stands
for `html.ParseFragment` in the context of a `body` element; when it fails the
escaped input is returned (`html.EscapeString`). -/
def SanitizeString (lower : Char → Char)
    (ParseFragment : List Char → Except GoError (List Node)) (raw : List Char) : List Char :=
  match ParseFragment raw with
  | Except.error _ => escape raw
  | Except.ok nodes => Sanitize lower nodes

/-- A `MarkdownService` (its sanitizer has no state). -/
structure MarkdownService where
  parser : MarkdownParser
  maxInputSize : Int
  sanitize : Bool

/-- The error `fmt.Errorf("input exceeds maximum size of %d bytes", max)`. -/
def exceedsMaximumSize (max : Int) : GoError :=
  GoError.mk ("input exceeds maximum size of ".toList ++ (toString max).toList ++
    " bytes".toList) none

/-- The error `fmt.Errorf("render failed: %w", err)`. -/
def renderFailed (err : GoError) : GoError :=
  GoError.mk ("render failed: ".toList ++ err.Error) (some err)

/-- Go `MarkdownService.Render`. -/
def MarkdownService.Render (lower : Char → Char)
    (ParseFragment : List Char → Except GoError (List Node))
    (s : MarkdownService) (req : RenderRequest) : Except GoError RenderResult :=
  if len req.Content = 0 then
    Except.ok { HTML := [], TOC := none, Metadata := none, CodeBlocks := none }
  else if s.maxInputSize > 0 ∧ (len req.Content : Int) > s.maxInputSize then
    Except.error (exceedsMaximumSize s.maxInputSize)
  else
    match s.parser.Render lower req.Content with
    | Except.error err => Except.error (renderFailed err)
    | Except.ok result =>
      if s.sanitize then
        Except.ok { result with HTML := SanitizeString lower ParseFragment result.HTML }
      else Except.ok result

/-- Go `MarkdownService.ExtractTOC`; `none` is the nil slice. -/
def MarkdownService.ExtractTOC (lower : Char → Char) (s : MarkdownService)
    (content : List Char) : Except GoError (Option (List TOCEntry)) :=
  if len content = 0 then Except.ok none
  else if s.maxInputSize > 0 ∧ (len content : Int) > s.maxInputSize then
    Except.error (exceedsMaximumSize s.maxInputSize)
  else Except.ok (some (Markdown.ExtractTOC lower content))

/-- Go `MarkdownService.ExtractCodeBlocks`; `none` is the nil slice. -/
def MarkdownService.ExtractCodeBlocks (s : MarkdownService)
    (content : List Char) : Except GoError (Option (List CodeBlock)) :=
  if len content = 0 then Except.ok none
  else if s.maxInputSize > 0 ∧ (len content : Int) > s.maxInputSize then
    Except.error (exceedsMaximumSize s.maxInputSize)
  else Except.ok (some (Markdown.ExtractCodeBlocks content))

/-- A parser for the examples: its converter always returns
`<p>hi</p><script>x</script>`; the TOC is enabled. -/
def exampleParser : MarkdownParser :=
  { md := fun _ => Except.ok "<p>hi</p><script>x</script>".toList,
    opts := { SanitizeHTML := false, EnableMermaid := false, EnableMath := false,
              EnableTOC := true, CodeTheme := [] } }

/-- The fragment parser for the examples: the forest of
`<p>hi</p><script>x</script>`. -/
def exampleParseFragment (_ : List Char) : Except GoError (List Node) :=
  Except.ok [el "p" [txt "hi"], el "script" [txt "x"]]

/-- A parser for the examples whose converter always fails with `boom`. -/
def failingParser : MarkdownParser :=
  { md := fun _ => Except.error (GoError.mk "boom".toList none),
    opts := { SanitizeHTML := false, EnableMermaid := false, EnableMath := false,
              EnableTOC := true, CodeTheme := [] } }

/-! ## Slice bounds of `ExtractFrontmatter` -/

/-- The Go slice expression `s[lo:]`: `none` stands for the run-time panic when
`lo` is out of range. -/
def sliceFrom (s : List Char) (lo : Nat) : Option (List Char) :=
  if lo ≤ s.length then some (s.drop lo) else none

/-- The Go slice expression `s[lo:hi]`: `none` stands for the run-time panic
when the bounds are out of range. -/
def slice (s : List Char) (lo hi : Nat) : Option (List Char) :=
  if lo ≤ hi ∧ hi ≤ s.length then some ((s.take hi).drop lo) else none

/-- Go `MarkdownParser.ExtractFrontmatter` with the bounds checks of its three
slice expressions `s[4:]`, `s[4 : 4+end]` and `s[4+end+4:]`: `none` stands for
a panic, `some` holds the two results. -/
def ExtractFrontmatterChecked (input : List Char) : Option (Option StrMap × List Char) :=
  let s := input
  if !HasPrefix s "---\n".toList then some (none, input)
  else
    match sliceFrom s 4 with
    | none => none
    | some s4 =>
      match Index s4 "\n---".toList with
      | none => some (none, input)
      | some e =>
        match slice s 4 (4 + e), sliceFrom s (4 + e + 4) with
        | some block, some body => some (some (parseLines (Split '\n' block) []), body)
        | _, _ => none

/-! ## Documents of fenced blocks, in the words of the claims -/

/-- Complete lines put together: each line is followed by its line feed. -/
def joinLines : List (List Char) → List Char
  | [] => []
  | l :: rest => l ++ '\n' :: joinLines rest

/-- A line (without its line feed) that does not begin with three backticks. -/
def plainLine (l : List Char) : Bool :=
  !l.contains '\n' && !fence.isPrefixOf l

/-- A well-terminated fence: the language tag of its opening line and the lines
of its body. -/
structure FencedBlock where
  lang : List Char
  body : List (List Char)

/-- The tag is made of word characters and no body line begins with three
backticks. -/
def FencedBlock.wellFormed (f : FencedBlock) : Bool :=
  f.lang.all reWord && f.body.all plainLine

/-- The text of a fence: the opening line, the body lines and the three
backticks of the closing line (without the line feed of that line). -/
def FencedBlock.text (f : FencedBlock) : List Char :=
  fence ++ f.lang ++ '\n' :: (joinLines f.body ++ fence)

/-- The record the claims expect for a fence. -/
def FencedBlock.record (f : FencedBlock) : CodeBlock :=
  { Language := f.lang, Code := joinLines f.body,
    LineCount := (joinLines f.body).count '\n' + 1 }

/-- Fences with complete closing lines, each followed by complete lines. -/
def fencesText : List (FencedBlock × List (List Char)) → List Char
  | [] => []
  | (f, sep) :: more => f.text ++ '\n' :: (joinLines sep ++ fencesText more)

/-- A document of fences: complete lines, then the fences, each one followed by
complete lines. -/
def fencedDoc (sep0 : List (List Char)) (fs : List (FencedBlock × List (List Char))) :
    List Char :=
  joinLines sep0 ++ fencesText fs

/-- All fences are well formed and all lines around them are plain. -/
def fencedDocOk (sep0 : List (List Char)) (fs : List (FencedBlock × List (List Char))) :
    Bool :=
  sep0.all plainLine && fs.all (fun p => p.1.wellFormed && p.2.all plainLine)

/-! ## Sanitizer: helper lemmas -/

theorem textsEach_append (a b : List Node) :
    textsEach (a ++ b) = textsEach a ++ textsEach b := by
  induction a with
  | nil => simp [textsEach]
  | cons c rest ih => simp [textsEach, ih]

theorem safeTextsEach_append (a b : List Node) :
    safeTextsEach (a ++ b) = safeTextsEach a ++ safeTextsEach b := by
  induction a with
  | nil => simp [safeTextsEach]
  | cons c rest ih => simp [safeTextsEach, ih]

theorem renderCleanEach_append (lower : Char → Char) (a b : List Node) :
    renderCleanEach lower (a ++ b) = renderCleanEach lower a ++ renderCleanEach lower b := by
  induction a with
  | nil => simp [renderCleanEach]
  | cons c rest ih => simp [renderCleanEach, ih]

mutual
theorem Node.safeTexts_sublist : ∀ n : Node, n.safeTexts.Sublist n.texts
  | Node.element tag _ kids => by
    simp only [Node.safeTexts, Node.texts]
    split
    · exact List.nil_sublist _
    · exact safeTextsEach_sublist kids
  | Node.text d => by simp [Node.safeTexts, Node.texts]
  | Node.other _ _ => by simp [Node.safeTexts, Node.texts]
theorem safeTextsEach_sublist : ∀ f : List Node, (safeTextsEach f).Sublist (textsEach f)
  | [] => by simp [safeTextsEach, textsEach]
  | c :: rest => by
    simp only [safeTextsEach, textsEach]
    exact List.Sublist.append (Node.safeTexts_sublist c) (safeTextsEach_sublist rest)
end

mutual
theorem walkChild_texts (lower : Char → Char) : ∀ n : Node,
    n.safeTexts.Sublist (textsEach (walkChild lower n)) ∧
    (textsEach (walkChild lower n)).Sublist n.texts
  | Node.element tag attr kids => by
    simp only [Node.safeTexts, Node.texts, walkChild]
    by_cases hd : dropEntireSubtree tag = true
    · simp [hd, textsEach]
    · by_cases ha : allowedTags tag = true
      · have ih := walkAndClean_texts lower kids
        simpa [hd, ha, textsEach, Node.texts] using ih
      · simp only [hd, ha, promoteChildren]
        simpa using safeTextsEach_sublist kids
  | Node.text d => by simp [Node.safeTexts, Node.texts, walkChild, textsEach]
  | Node.other _ _ => by simp [Node.safeTexts, Node.texts, walkChild, textsEach]
theorem walkAndClean_texts (lower : Char → Char) : ∀ f : List Node,
    (safeTextsEach f).Sublist (textsEach (walkAndClean lower f)) ∧
    (textsEach (walkAndClean lower f)).Sublist (textsEach f)
  | [] => by simp [safeTextsEach, textsEach, walkAndClean]
  | c :: rest => by
    have h1 := walkChild_texts lower c
    have h2 := walkAndClean_texts lower rest
    simp only [safeTextsEach, textsEach, walkAndClean, textsEach_append]
    exact ⟨List.Sublist.append h1.1 h2.1, List.Sublist.append h1.2 h2.2⟩
end

mutual
theorem renderClean_texts (lower : Char → Char) : ∀ n : Node,
    n.safeTexts.Sublist (textsEach (renderClean lower n)) ∧
    (textsEach (renderClean lower n)).Sublist n.texts
  | Node.element tag attr kids => by
    simp only [Node.safeTexts, Node.texts, renderClean]
    by_cases hd : dropEntireSubtree tag = true
    · simp [hd, textsEach]
    · by_cases ha : allowedTags tag = true
      · have ih := walkAndClean_texts lower kids
        simpa [hd, ha, textsEach, Node.texts] using ih
      · simp only [hd, ha]
        simpa using renderCleanEach_texts lower kids
  | Node.text d => by simp [Node.safeTexts, Node.texts, renderClean, textsEach]
  | Node.other _ _ => by simp [Node.safeTexts, Node.texts, renderClean, textsEach]
theorem renderCleanEach_texts (lower : Char → Char) : ∀ f : List Node,
    (safeTextsEach f).Sublist (textsEach (renderCleanEach lower f)) ∧
    (textsEach (renderCleanEach lower f)).Sublist (textsEach f)
  | [] => by simp [safeTextsEach, textsEach, renderCleanEach]
  | c :: rest => by
    have h1 := renderClean_texts lower c
    have h2 := renderCleanEach_texts lower rest
    simp only [safeTextsEach, textsEach, renderCleanEach, textsEach_append]
    exact ⟨List.Sublist.append h1.1 h2.1, List.Sublist.append h1.2 h2.2⟩
end

theorem safeAttrs_not_on (key : List Char) (h : safeAttrs key = true) :
    HasPrefix key "on".toList = false := by
  simp only [safeAttrs, decide_eq_true_eq, List.map, List.mem_cons, List.mem_singleton,
    List.not_mem_nil, or_false] at h
  rcases h with h | h | h | h | h | h | h | h | h | h | h <;> subst h <;> decide

theorem allowed_not_dropped (tag : List Char) (h : allowedTags tag = true) :
    dropEntireSubtree tag = false := by
  have key : ∀ t ∈ ["a", "abbr", "b", "blockquote", "br", "code", "dd", "del",
      "details", "div", "dl", "dt", "em", "h1", "h2", "h3",
      "h4", "h5", "h6", "hr", "i", "img", "ins", "kbd",
      "li", "ol", "p", "pre", "q", "s", "samp", "small",
      "span", "strong", "sub", "summary", "sup", "table", "tbody", "td",
      "tfoot", "th", "thead", "tr", "u", "ul", "var"].map String.toList,
      dropEntireSubtree t = false := by decide
  exact key tag (by simpa [allowedTags] using h)

/-! ## Sanitizer: the claims -/

/-- C1 (the code breaks it): the output of Sanitize should hold no element of the
drop-subtree set and no attribute whose name begins with `on`, at any depth.
For `<div><section><script>alert(1)</script><img src="x" onerror="alert(1)">
</section></div>` the loop of `walkAndClean` unwraps `section` and goes on at
its old next sibling, so the promoted `script` and `img` are never cleaned: the
output holds a `script` element and an `onerror` attribute.  The same subtree
at top level, where `renderClean` recurses into the children, is cleaned. -/
theorem C1_promoted_children_escape_cleaning :
    SanitizeNodes asciiLower promotedScript =
      [el "div" [el "script" [txt "alert(1)"],
        Node.element "img".toList
          [⟨"src".toList, "x".toList⟩, ⟨"onerror".toList, "alert(1)".toList⟩] []]] ∧
    anyDropTag (SanitizeNodes asciiLower promotedScript) = true ∧
    anyOnAttr (SanitizeNodes asciiLower promotedScript) = true ∧
    Sanitize asciiLower promotedScript =
      "<div><script>alert(1)</script><img src=\"x\" onerror=\"alert(1)\"/></div>".toList ∧
    SanitizeNodes asciiLower
      [el "section" [el "script" [txt "alert(1)"],
        Node.element "img".toList
          [⟨"src".toList, "x".toList⟩, ⟨"onerror".toList, "alert(1)".toList⟩] []]] =
      [Node.element "img".toList [⟨"src".toList, "x".toList⟩] []] :=
  ⟨rfl, by decide, by decide, by decide, rfl⟩

/-- C2 (the code breaks it): Sanitize should be idempotent.  The forest that
Sanitize returns for `<div><section><script>alert(1)</script>...</section></div>`
still holds the promoted `script` and the `onerror` attribute; sanitizing that
forest again removes them, so the second pass changes the result. -/
theorem C2_second_pass_changes_result :
    SanitizeNodes asciiLower (SanitizeNodes asciiLower promotedScript) =
      [el "div" [Node.element "img".toList [⟨"src".toList, "x".toList⟩] []]] ∧
    SanitizeNodes asciiLower (SanitizeNodes asciiLower promotedScript) ≠
      SanitizeNodes asciiLower promotedScript ∧
    Sanitize asciiLower (SanitizeNodes asciiLower promotedScript) =
      "<div><img src=\"x\"/></div>".toList ∧
    Sanitize asciiLower (SanitizeNodes asciiLower promotedScript) ≠
      Sanitize asciiLower promotedScript :=
  ⟨rfl, fun h => absurd (congrArg anyDropTag h) (by decide), by decide, by decide⟩

theorem keepAttr_eq_keptBySpec (lower : Char → Char) (a : Attribute) :
    keepAttr lower a = keptBySpec lower a := by
  have hon := safeAttrs_not_on (ToLower lower a.Key)
  have e1 : safeAttrs (ToLower lower a.Key) = decide (a.Key.map lower ∈
    ["href".toList, "src".toList, "alt".toList, "title".toList,
    "class".toList, "id".toList, "width".toList, "height".toList, "colspan".toList,
    "rowspan".toList, "align".toList]) := rfl
  show (if HasPrefix (ToLower lower a.Key) "on".toList = true then false
    else if (!safeAttrs (ToLower lower a.Key)) = true then false
    else if ((ToLower lower a.Key == "href".toList || ToLower lower a.Key == "src".toList) &&
      (HasPrefix (TrimSpace (ToLower lower a.Val)) "javascript:".toList ||
        HasPrefix (TrimSpace (ToLower lower a.Val)) "data:".toList)) = true then false
    else true) = _
  show _ = (decide (a.Key.map lower ∈
    ["href".toList, "src".toList, "alt".toList, "title".toList,
    "class".toList, "id".toList, "width".toList, "height".toList, "colspan".toList,
    "rowspan".toList, "align".toList]) &&
    !((ToLower lower a.Key == "href".toList || ToLower lower a.Key == "src".toList) &&
      (HasPrefix (TrimSpace (ToLower lower a.Val)) "javascript:".toList ||
        HasPrefix (TrimSpace (ToLower lower a.Val)) "data:".toList)))
  rw [← e1]
  generalize ((ToLower lower a.Key == "href".toList || ToLower lower a.Key == "src".toList) &&
      (HasPrefix (TrimSpace (ToLower lower a.Val)) "javascript:".toList ||
        HasPrefix (TrimSpace (ToLower lower a.Val)) "data:".toList)) = bad
  cases hs : safeAttrs (ToLower lower a.Key)
  · cases HasPrefix (ToLower lower a.Key) "on".toList <;> rfl
  · rw [hon hs]
    cases bad <;> rfl

theorem cleanAttrs_eq_filter (lower : Char → Char) (attrs : List Attribute) :
    cleanAttrs lower attrs = attrs.filter (keptBySpec lower) := by
  induction attrs with
  | nil => rfl
  | cons a rest ih =>
    simp only [cleanAttrs, List.filter_cons, keepAttr_eq_keptBySpec, ih]

/-- C3: `cleanAttrs` keeps, in their original order, exactly the attributes whose
lower-cased name is one of the eleven safe names and whose value, for `href`
and `src`, lower-cased and trimmed, begins with neither `javascript:` nor
`data:`; so no kept name begins with `on` in any letter case (for a `lower`
that is right on the letters o and n), and
`<div onclick="alert('xss')">Click</div>` becomes `<div>Click</div>`. -/
theorem C3_cleanAttrs_keeps_exactly_safe (lower : Char → Char) (attrs : List Attribute) :
    cleanAttrs lower attrs = attrs.filter (keptBySpec lower) ∧
    (lower 'o' = 'o' → lower 'O' = 'o' → lower 'n' = 'n' → lower 'N' = 'n' →
      ∀ a ∈ cleanAttrs lower attrs, beginsWithOn a.Key = false) ∧
    Sanitize asciiLower
      [Node.element "div".toList [⟨"onclick".toList, "alert('xss')".toList⟩] [txt "Click"]] =
      "<div>Click</div>".toList := by
  refine ⟨cleanAttrs_eq_filter lower attrs, ?_, by decide⟩
  intro ho hO hn hN a ha
  rw [cleanAttrs_eq_filter, List.mem_filter, ← keepAttr_eq_keptBySpec] at ha
  have hk := ha.2
  have hsafe : safeAttrs (ToLower lower a.Key) = true := by
    unfold keepAttr at hk
    cases hs : safeAttrs (ToLower lower a.Key)
    · simp [hs] at hk
    · rfl
  have hon := safeAttrs_not_on _ hsafe
  cases hkey : a.Key with
  | nil => rfl
  | cons c rest =>
    cases rest with
    | nil => rfl
    | cons d rest2 =>
      rw [hkey] at hon
      by_contra hb
      have hb2 : ((c == 'o' || c == 'O') && (d == 'n' || d == 'N')) = true := by
        cases hv : ((c == 'o' || c == 'O') && (d == 'n' || d == 'N'))
        · exact absurd hv hb
        · rfl
      simp only [Bool.and_eq_true, Bool.or_eq_true, beq_iff_eq] at hb2
      have hc : lower c = 'o' := by rcases hb2.1 with h | h <;> simp [h, ho, hO]
      have hd : lower d = 'n' := by rcases hb2.2 with h | h <;> simp [h, hn, hN]
      simp [ToLower, HasPrefix, hc, hd] at hon

/-- C3 at work: of `onclick`, `HREF` with a script URL and `Class`, only
`Class` is kept, and its name does not begin with `on`. -/
theorem C3_cleanAttrs_keeps_exactly_safe_witness :
    cleanAttrs asciiLower [⟨"onclick".toList, "x".toList⟩,
        ⟨"HREF".toList, " JavaScript:alert(1)".toList⟩, ⟨"Class".toList, "c".toList⟩] =
      [⟨"Class".toList, "c".toList⟩] ∧
    beginsWithOn "Class".toList = false :=
  ⟨(C3_cleanAttrs_keeps_exactly_safe asciiLower [⟨"onclick".toList, "x".toList⟩,
        ⟨"HREF".toList, " JavaScript:alert(1)".toList⟩, ⟨"Class".toList, "c".toList⟩]).1.trans
      (by decide),
   (C3_cleanAttrs_keeps_exactly_safe asciiLower [⟨"onclick".toList, "x".toList⟩,
        ⟨"HREF".toList, " JavaScript:alert(1)".toList⟩, ⟨"Class".toList, "c".toList⟩]).2.1
      (by decide) (by decide) (by decide) (by decide) ⟨"Class".toList, "c".toList⟩ (by decide)⟩

/-- C4 as stated fails: in `<p onclick="x">Hello</p><script>alert(1)</script>`
the `script` is a top-level drop-subtree element and `p` is a sibling top-level
allowed element, but `p` is not emitted unchanged: its `onclick` is removed. -/
theorem C4_sibling_not_unchanged :
    dropEntireSubtree "script".toList = true ∧ allowedTags "p".toList = true ∧
    Sanitize asciiLower
      [Node.element "p".toList [⟨"onclick".toList, "x".toList⟩] [txt "Hello"],
       el "script" [txt "alert(1)"]] = "<p>Hello</p>".toList ∧
    renderAll [Node.element "p".toList [⟨"onclick".toList, "x".toList⟩] [txt "Hello"]] =
      "<p onclick=\"x\">Hello</p>".toList ∧
    Sanitize asciiLower
      [Node.element "p".toList [⟨"onclick".toList, "x".toList⟩] [txt "Hello"],
       el "script" [txt "alert(1)"]] ≠
    renderAll [Node.element "p".toList [⟨"onclick".toList, "x".toList⟩] [txt "Hello"]] := by
  decide

/-- C4, amended: a top-level element of the drop-subtree set contributes
nothing to the output, neither itself nor any descendant: the forest serialised
is the one serialised for the fragment without it.  A sibling top-level allowed
element that `cleanAttrs` and `walkAndClean` leave as it is, is emitted
unchanged.  For `<p>Hello</p><script>alert('xss')</script><p>World</p>` the
output is exactly `<p>Hello</p><p>World</p>`, which holds neither `script` nor
`alert`. -/
theorem C4_top_level_drop (lower : Char → Char) (before after : List Node)
    (tag : List Char) (attr : List Attribute) (kids : List Node)
    (hdrop : dropEntireSubtree tag = true) :
    SanitizeNodes lower (before ++ Node.element tag attr kids :: after) =
      SanitizeNodes lower before ++ SanitizeNodes lower after ∧
    (∀ (t : List Char) (a : List Attribute) (k : List Node),
      allowedTags t = true → cleanAttrs lower a = a → walkAndClean lower k = k →
      SanitizeNodes lower [Node.element t a k] = [Node.element t a k]) ∧
    Sanitize asciiLower
      [el "p" [txt "Hello"], el "script" [txt "alert('xss')"], el "p" [txt "World"]] =
      "<p>Hello</p><p>World</p>".toList ∧
    ¬ "script".toList <:+: "<p>Hello</p><p>World</p>".toList ∧
    ¬ "alert".toList <:+: "<p>Hello</p><p>World</p>".toList := by
  refine ⟨?_, ?_, by decide, by decide, by decide⟩
  · simp [SanitizeNodes, renderCleanEach_append, renderCleanEach, renderClean, hdrop]
  · intro t a k ht ha hk
    simp [SanitizeNodes, renderCleanEach, renderClean, allowed_not_dropped t ht, ht, ha, hk]

/-- C4 at work on `<p>Before</p><iframe src="evil.com"></iframe><p>After</p>`. -/
theorem C4_top_level_drop_witness :
    SanitizeNodes asciiLower ([el "p" [txt "Before"]] ++
      Node.element "iframe".toList [⟨"src".toList, "evil.com".toList⟩] [] ::
        [el "p" [txt "After"]]) =
      SanitizeNodes asciiLower [el "p" [txt "Before"]] ++
        SanitizeNodes asciiLower [el "p" [txt "After"]] :=
  (C4_top_level_drop asciiLower [el "p" [txt "Before"]] [el "p" [txt "After"]]
    "iframe".toList [⟨"src".toList, "evil.com".toList⟩] [] (by decide)).1

theorem occursInOrder_left : ∀ (ps : List (List Char)) (x s : List Char),
    occursInOrder ps s → occursInOrder ps (x ++ s)
  | [], _, _, _ => trivial
  | _ :: _, x, _, ⟨a, b, hs, hb⟩ => ⟨x ++ a, b, by rw [hs]; simp only [List.append_assoc], hb⟩

theorem occursInOrder_right : ∀ (ps : List (List Char)) (s y : List Char),
    occursInOrder ps s → occursInOrder ps (s ++ y)
  | [], _, _, _ => trivial
  | _ :: ps, _, y, ⟨a, b, hs, hb⟩ =>
    ⟨a, b ++ y, by rw [hs]; simp only [List.append_assoc], occursInOrder_right ps b y hb⟩

theorem occursInOrder_append : ∀ (ps qs : List (List Char)) (s t : List Char),
    occursInOrder ps s → occursInOrder qs t → occursInOrder (ps ++ qs) (s ++ t)
  | [], qs, s, t, _, ht => occursInOrder_left qs s t ht
  | _ :: ps, qs, _, t, ⟨a, b, hs, hb⟩, ht =>
    ⟨a, b ++ t, by rw [hs]; simp only [List.append_assoc],
      occursInOrder_append ps qs b t hb ht⟩

theorem allowed_not_literal (tag : List Char) (h : allowedTags tag = true) :
    childTextNodesAreLiteral tag = false ∧ (tag != "plaintext".toList) = true := by
  have key : ∀ t ∈ ["a", "abbr", "b", "blockquote", "br", "code", "dd", "del",
      "details", "div", "dl", "dt", "em", "h1", "h2", "h3",
      "h4", "h5", "h6", "hr", "i", "img", "ins", "kbd",
      "li", "ol", "p", "pre", "q", "s", "samp", "small",
      "span", "strong", "sub", "summary", "sup", "table", "tbody", "td",
      "tfoot", "th", "thead", "tr", "u", "ul", "var"].map String.toList,
      childTextNodesAreLiteral t = false ∧ (t != "plaintext".toList) = true := by decide
  exact key tag (by simpa [allowedTags] using h)

mutual
/-- A subtree of text nodes and allowed elements is serialised without error,
and its text nodes occur escaped, in document order, in the result. -/
theorem render1_plain : ∀ n : Node, n.plain = true →
    (render1 n).2 = true ∧ occursInOrder (n.texts.map escape) (render1 n).1
  | Node.text d, _ => by
    refine ⟨rfl, [], [], ?_, trivial⟩
    simp [render1, Node.texts]
  | Node.other _ _, h => by simp [Node.plain] at h
  | Node.element tag attr kids, h => by
    simp only [Node.plain, Bool.and_eq_true, Bool.or_eq_true, Bool.not_eq_true'] at h
    obtain ⟨⟨hallowed, hvoid⟩, hkids⟩ := h
    obtain ⟨hlit, hplain⟩ := allowed_not_literal tag hallowed
    have ih := renderChildren_plain kids hkids
    rw [render1]
    by_cases hv : voidElements tag = true
    · have hempty : kids.isEmpty = true := by
        rcases hvoid with h1 | h1
        · rw [hv] at h1; exact absurd h1 (by decide)
        · exact h1
      have hnil : kids = [] := by simpa using hempty
      subst hnil
      simp only [hv, if_true, List.isEmpty_nil, Node.texts, textsEach, List.map_nil]
      exact ⟨trivial, trivial⟩
    · simp only [hv, hlit, ih.1, hplain, Bool.and_self, if_true, Bool.false_eq_true, if_false,
        Node.texts]
      refine ⟨trivial, ?_⟩
      generalize (if (startsWithNewline kids && (tag == "pre".toList ||
        tag == "listing".toList || tag == "textarea".toList)) = true then ['\n'] else []) = nl
      have e : '<' :: tag ++ renderAttrs attr ++ ['>'] ++ nl ++ (renderChildren false kids).1 ++
          "</".toList ++ tag ++ ['>'] =
          ('<' :: tag ++ renderAttrs attr ++ ['>'] ++ nl) ++
            ((renderChildren false kids).1 ++ ("</".toList ++ tag ++ ['>'])) := by
        simp only [List.append_assoc, List.cons_append]
      rw [e]
      exact occursInOrder_left _ _ _ (occursInOrder_right _ _ _ ih.2)
theorem renderChildren_plain : ∀ kids : List Node, plainEach kids = true →
    (renderChildren false kids).2 = true ∧
    occursInOrder ((textsEach kids).map escape) (renderChildren false kids).1
  | [], _ => ⟨rfl, trivial⟩
  | c :: rest, h => by
    simp only [plainEach, Bool.and_eq_true] at h
    have h1 := render1_plain c h.1
    have h2 := renderChildren_plain rest h.2
    have e : renderChildren false (c :: rest) =
        (if (render1 c).2 = true then
          ((render1 c).1 ++ (renderChildren false rest).1, (renderChildren false rest).2)
        else ((render1 c).1, false)) := by
      cases c <;> rfl
    rw [e, if_pos h1.1]
    simp only [textsEach, List.map_append]
    exact ⟨h2.1, occursInOrder_append _ _ _ _ h1.2 h2.2⟩
end

theorem renderAll_plain : ∀ f : List Node, plainEach f = true →
    occursInOrder ((textsEach f).map escape) (renderAll f)
  | [], _ => trivial
  | c :: rest, h => by
    simp only [plainEach, Bool.and_eq_true] at h
    simp only [renderAll, textsEach, List.map_append]
    exact occursInOrder_append _ _ _ _ (render1_plain c h.1).2 (renderAll_plain rest h.2)

/-- `TrimSpace` removes white space at the two ends and nothing else. -/
theorem TrimSpace_decomp (s : List Char) :
    ∃ pre post : List Char, s = pre ++ TrimSpace s ++ post ∧
      pre.all isSpace = true ∧ post.all isSpace = true := by
  refine ⟨s.takeWhile isSpace, ((s.dropWhile isSpace).reverse.takeWhile isSpace).reverse,
    ?_, ?_, ?_⟩
  · unfold TrimSpace
    rw [List.append_assoc, ← List.reverse_append, List.takeWhile_append_dropWhile,
      List.reverse_reverse, List.takeWhile_append_dropWhile]
  · rw [List.all_eq_true]
    exact fun x hx => List.mem_takeWhile_imp hx
  · rw [List.all_eq_true]
    intro x hx
    exact List.mem_takeWhile_imp (List.mem_reverse.mp hx)

theorem occursInOrder_sublist : ∀ (qs ps : List (List Char)) (s : List Char),
    qs.Sublist ps → occursInOrder ps s → occursInOrder qs s
  | _, _, _, List.Sublist.slnil, _ => trivial
  | qs, _ :: ps, _, List.Sublist.cons _ hsub, ⟨x, b, hs, hb⟩ => by
    rw [hs]
    exact occursInOrder_left qs _ b (occursInOrder_sublist qs ps b hsub hb)
  | _ :: qs, _ :: ps, _, List.Sublist.cons₂ _ hsub, ⟨x, b, hs, hb⟩ =>
    ⟨x, b, hs, occursInOrder_sublist qs ps b hsub hb⟩

/-- C5 as stated fails: in the parsed fragment of ` <b>x</b>` the text node of
one space has no drop-subtree ancestor, but it is not in the output of
Sanitize, which is `<b>x</b>`: the serialised string is trimmed. -/
theorem C5_edge_white_space_trimmed :
    safeTextsEach [txt " ", el "b" [txt "x"]] = [" ".toList, "x".toList] ∧
    Sanitize asciiLower [txt " ", el "b" [txt "x"]] = "<b>x</b>".toList ∧
    ¬ " ".toList <:+: Sanitize asciiLower [txt " ", el "b" [txt "x"]] := by
  decide

/-- C5, amended: unwrapping loses no content in the forest that Sanitize hands
to the serialiser: the text nodes with no drop-subtree ancestor are, in
document order, among its text nodes, and these are, in document order, among
the text nodes of the input; an element on neither list that the loops handle
is removed and its children take its position, in `walkAndClean` and in
`renderClean`.  When that forest holds only text nodes and allowed elements,
its text nodes, and so the text nodes with no drop-subtree ancestor, occur
escaped and in order in the serialised string; and the output of Sanitize is
that string without white space at its two ends, also from the raw string on
when the fragment parser returns this forest. -/
theorem C5_unwrap_keeps_text (lower : Char → Char) (nodes : List Node) :
    (safeTextsEach nodes).Sublist (textsEach (SanitizeNodes lower nodes)) ∧
    (textsEach (SanitizeNodes lower nodes)).Sublist (textsEach nodes) ∧
    (∀ (tag : List Char) (attr : List Attribute) (kids before after : List Node),
      dropEntireSubtree tag = false → allowedTags tag = false →
      walkAndClean lower (before ++ Node.element tag attr kids :: after) =
        walkAndClean lower before ++ kids ++ walkAndClean lower after ∧
      SanitizeNodes lower (before ++ Node.element tag attr kids :: after) =
        SanitizeNodes lower before ++ SanitizeNodes lower kids ++
          SanitizeNodes lower after) ∧
    (plainEach (SanitizeNodes lower nodes) = true →
      occursInOrder ((textsEach (SanitizeNodes lower nodes)).map escape)
        (renderAll (SanitizeNodes lower nodes)) ∧
      occursInOrder ((safeTextsEach nodes).map escape)
        (renderAll (SanitizeNodes lower nodes))) ∧
    (∃ pre post : List Char,
      renderAll (SanitizeNodes lower nodes) = pre ++ Sanitize lower nodes ++ post ∧
      pre.all isSpace = true ∧ post.all isSpace = true) ∧
    (∀ (ParseFragment : List Char → Except GoError (List Node)) (raw : List Char),
      ParseFragment raw = Except.ok nodes →
      SanitizeString lower ParseFragment raw = Sanitize lower nodes) := by
  refine ⟨(renderCleanEach_texts lower nodes).1, (renderCleanEach_texts lower nodes).2,
    ?_, ?_, TrimSpace_decomp _, fun ParseFragment raw hparse => by
      unfold SanitizeString
      rw [hparse]⟩
  · intro tag attr kids before after hd ha
    constructor
    · induction before with
      | nil => simp [walkAndClean, walkChild, promoteChildren, hd, ha]
      | cons c rest ih => simp [walkAndClean, ih]
    · simp [SanitizeNodes, renderCleanEach_append, renderCleanEach, renderClean, hd, ha]
  · intro hplain
    have h := renderAll_plain _ hplain
    exact ⟨h, occursInOrder_sublist _ _ _
      ((renderCleanEach_texts lower nodes).1.map escape) h⟩

/-- C5 at work on the parsed fragment of
`<font> a&amp;<script>b</script><b>c</b></font>d `: the texts ` a&`, `c` and `d `
occur escaped and in order in the serialised string, and the output is that
string without the white space at its ends. -/
theorem C5_unwrap_keeps_text_witness :
    occursInOrder
      ((safeTextsEach [el "font" [txt " a&", el "script" [txt "b"], el "b" [txt "c"]],
        txt "d "]).map escape)
      (renderAll (SanitizeNodes asciiLower
        [el "font" [txt " a&", el "script" [txt "b"], el "b" [txt "c"]], txt "d "])) ∧
    safeTextsEach [el "font" [txt " a&", el "script" [txt "b"], el "b" [txt "c"]], txt "d "] =
      [" a&".toList, "c".toList, "d ".toList] ∧
    renderAll (SanitizeNodes asciiLower
      [el "font" [txt " a&", el "script" [txt "b"], el "b" [txt "c"]], txt "d "]) =
      " a&amp;<b>c</b>d ".toList ∧
    Sanitize asciiLower
      [el "font" [txt " a&", el "script" [txt "b"], el "b" [txt "c"]], txt "d "] =
      "a&amp;<b>c</b>d".toList ∧
    SanitizeNodes asciiLower ([] ++ Node.element "font".toList []
        [txt " a&", el "script" [txt "b"], el "b" [txt "c"]] :: [txt "d "]) =
      SanitizeNodes asciiLower [] ++
        SanitizeNodes asciiLower [txt " a&", el "script" [txt "b"], el "b" [txt "c"]] ++
        SanitizeNodes asciiLower [txt "d "] ∧
    SanitizeString asciiLower exampleParseFragment "<p>hi</p><script>x</script>".toList =
      Sanitize asciiLower [el "p" [txt "hi"], el "script" [txt "x"]] :=
  ⟨((C5_unwrap_keeps_text asciiLower
      [el "font" [txt " a&", el "script" [txt "b"], el "b" [txt "c"]], txt "d "]).2.2.2.1
      (by decide)).2, by decide, by decide, by decide,
   ((C5_unwrap_keeps_text asciiLower []).2.2.1 "font".toList []
      [txt " a&", el "script" [txt "b"], el "b" [txt "c"]] [] [txt "d "]
      (by decide) (by decide)).2,
   (C5_unwrap_keeps_text asciiLower [el "p" [txt "hi"], el "script" [txt "x"]]).2.2.2.2.2
      exampleParseFragment "<p>hi</p><script>x</script>".toList rfl⟩

/-- C6 (the code breaks it): no comment should appear in the output.  For
`<div><section><!--x--></section></div>` the comment is promoted into `div` when
`section` is unwrapped and the loop of `walkAndClean` never visits it, so the
output holds the comment.  At top level the same subtree loses it. -/
theorem C6_promoted_comment_survives :
    SanitizeNodes asciiLower promotedComment =
      [el "div" [Node.other OtherType.CommentNode "x".toList]] ∧
    anyOther (SanitizeNodes asciiLower promotedComment) = true ∧
    Sanitize asciiLower promotedComment = "<div><!--x--></div>".toList ∧
    SanitizeNodes asciiLower [el "section" [Node.other OtherType.CommentNode "x".toList]] = [] :=
  ⟨rfl, by decide, by decide, rfl⟩

/-! ## Frontmatter: helper lemmas -/

theorem Index_none_of_absent (sep : List Char) :
    ∀ s : List Char, ¬ sep <:+: s → Index s sep = none
  | [], h => by
    cases sep with
    | nil => exact absurd List.nil_infix h
    | cons c t => rfl
  | c :: rest, h => by
    have h1 : sep.isPrefixOf (c :: rest) = false := by
      cases hp : sep.isPrefixOf (c :: rest)
      · rfl
      · exact absurd (List.IsPrefix.isInfix (List.isPrefixOf_iff_prefix.mp hp)) h
    have h2 : ¬ sep <:+: rest := fun hi =>
      h (hi.trans (List.suffix_cons c rest).isInfix)
    simp [Index, h1, Index_none_of_absent sep rest h2]

theorem StrMap.get_set (m : StrMap) (key val k : List Char) :
    (m.set key val).get k = if k = key then some val else m.get k := by
  by_cases hk : k = key
  · subst hk
    simp [StrMap.set, StrMap.get, List.lookup]
  · have hne : (k == key) = false := by simpa using hk
    simp only [StrMap.set, StrMap.get, List.lookup, hne, hk, if_false]
    induction m with
    | nil => rfl
    | cons e rest ih =>
      obtain ⟨a, b⟩ := e
      by_cases ha : a = key
      · subst ha
        simp [List.filter, List.lookup, hne, ih]
      · have hane : (a != key) = true := by simpa using ha
        simp only [List.filter, hane, List.lookup]
        cases hka : (k == a)
        · simpa using ih
        · rfl

theorem take_length_takeWhile (p : Char → Bool) (l : List Char) :
    l.take (l.takeWhile p).length = l.takeWhile p := by
  induction l with
  | nil => rfl
  | cons c rest ih =>
    cases hp : p c
    · simp [List.takeWhile_cons, hp]
    · simp [List.takeWhile_cons, hp, ih]

theorem drop_length_takeWhile (p : Char → Bool) (l : List Char) :
    l.drop (l.takeWhile p).length = l.dropWhile p := by
  induction l with
  | nil => rfl
  | cons c rest ih =>
    cases hp : p c
    · simp [List.takeWhile_cons, List.dropWhile_cons, hp]
    · simp [List.takeWhile_cons, List.dropWhile_cons, hp, ih]

theorem Index_colon (line : List Char) :
    Index line ":".toList =
      if line.contains ':' then some (line.takeWhile (fun c => c != ':')).length
      else none := by
  induction line with
  | nil => rfl
  | cons c rest ih =>
    by_cases hc : c = ':'
    · subst hc
      simp [Index, List.isPrefixOf]
    · have hcb : (':' == c) = false := by
        simp only [beq_eq_false_iff_ne, ne_eq]
        exact fun h => hc h.symm
      have h1 : ":".toList.isPrefixOf (c :: rest) = false := by
        show ((':' == c) && [].isPrefixOf rest) = false
        rw [hcb, Bool.false_and]
      have h2 : (c != ':') = true := by simpa using hc
      have h3 : (c :: rest).contains ':' = rest.contains ':' := by
        rw [List.contains_cons, hcb, Bool.false_or]
      rw [Index, if_neg (by rw [h1]; exact Bool.false_ne_true), ih, h3]
      by_cases hr : rest.contains ':' = true
      · rw [if_pos hr, if_pos hr, List.takeWhile_cons, if_pos h2]
        rfl
      · rw [if_neg hr, if_neg hr]
        rfl

theorem SplitN2_colon (line : List Char) :
    SplitN2 line ":".toList =
      if line.contains ':' then
        [line.takeWhile (fun c => c != ':'), (line.dropWhile (fun c => c != ':')).drop 1]
      else [line] := by
  unfold SplitN2
  rw [Index_colon]
  by_cases hr : line.contains ':' = true
  · rw [if_pos hr, if_pos hr]
    show [List.take _ line, List.drop ((line.takeWhile (fun c => c != ':')).length + 1) line] = _
    rw [take_length_takeWhile, ← List.drop_drop, drop_length_takeWhile]
  · rw [if_neg hr, if_neg hr]

/-- The step of the loop of `parseLines` in the words of the claim. -/
theorem parseLines_cons (line : List Char) (rest : List (List Char)) (m : StrMap) :
    parseLines (line :: rest) m =
      parseLines rest (if line.contains ':' && lineKey line != [] then
        m.set (lineKey line) (lineVal line) else m) := by
  rw [parseLines, SplitN2_colon]
  by_cases hr : line.contains ':' = true
  · have hr2 : ':' ∈ line := by simpa using hr
    by_cases hk : lineKey line = []
    · have hk2 : TrimSpace (line.takeWhile (fun c => c != ':')) = [] := hk
      simp [hr2, hk, hk2]
    · have hk2 : ¬ TrimSpace (line.takeWhile (fun c => c != ':')) = [] := hk
      simp [hr2, hk2, lineKey, lineVal]
  · have hr2 : ':' ∉ line := by simpa using hr
    simp [hr2]

theorem parseLines_get (k : List Char) (hk : k ≠ []) :
    ∀ (lines : List (List Char)) (m : StrMap),
      (parseLines lines m).get k =
        match lastLineFor k lines with
        | some line => some (lineVal line)
        | none => m.get k
  | [], m => rfl
  | line :: rest, m => by
    rw [parseLines_cons, parseLines_get k hk rest]
    unfold lastLineFor
    rw [List.filter_cons]
    by_cases hl : (line.contains ':' && lineKey line == k) = true
    · rw [if_pos hl]
      simp only [Bool.and_eq_true, beq_iff_eq] at hl
      have hne : (line.contains ':' && lineKey line != []) = true := by
        rw [hl.1, hl.2, Bool.true_and]
        simpa using hk
      rw [if_pos hne, StrMap.get_set, if_pos hl.2.symm]
      cases hf : (rest.filter (fun l => l.contains ':' && lineKey l == k)).getLast? with
      | none =>
        rw [List.getLast?_eq_none_iff] at hf
        rw [hf]
        rfl
      | some l =>
        have hne2 : rest.filter (fun l => l.contains ':' && lineKey l == k) ≠ [] := by
          intro h
          rw [h] at hf
          exact absurd hf (by simp)
        obtain ⟨b, t, hbt⟩ := List.exists_cons_of_ne_nil hne2
        rw [hbt] at hf
        rw [hbt, List.getLast?_cons_cons, hf]
    · rw [if_neg hl]
      have hget : (if (line.contains ':' && lineKey line != []) = true then
          m.set (lineKey line) (lineVal line) else m).get k = m.get k := by
        by_cases hc : (line.contains ':' && lineKey line != []) = true
        · rw [if_pos hc, StrMap.get_set]
          have : k ≠ lineKey line := by
            intro h
            apply hl
            simp only [Bool.and_eq_true] at hc
            rw [hc.1, h, Bool.true_and]
            exact beq_self_eq_true _
          rw [if_neg this]
        · rw [if_neg hc]
      rw [hget]

theorem parseLines_get_nil : ∀ (lines : List (List Char)) (m : StrMap),
    (parseLines lines m).get [] = m.get []
  | [], m => rfl
  | line :: rest, m => by
    rw [parseLines_cons, parseLines_get_nil rest]
    by_cases hc : (line.contains ':' && lineKey line != []) = true
    · rw [if_pos hc, StrMap.get_set]
      simp only [Bool.and_eq_true, bne_iff_ne, ne_eq] at hc
      rw [if_neg (fun h => hc.2 h.symm)]
    · rw [if_neg hc]

/-! ## Frontmatter: the claims -/

/-- C7 as stated fails: for the body `# Hello\n` the document
`---\nk: v\n---\n# Hello\n` gives the metadata k = v, but the returned body is
`\n# Hello\n`, not the body: the line break that ends the closing delimiter
line is part of it. -/
theorem C7_body_keeps_line_break :
    ExtractFrontmatter ("---\n".toList ++ "k: v\n".toList ++ "---\n".toList ++
        "# Hello\n".toList) =
      (some [("k".toList, "v".toList)], "\n# Hello\n".toList) ∧
    (ExtractFrontmatter ("---\n".toList ++ "k: v\n".toList ++ "---\n".toList ++
        "# Hello\n".toList)).2 ≠ "# Hello\n".toList := by
  decide

/-- C7, amended: for every body, `ExtractFrontmatter` applied to
`"---\n" + "k: v\n" + "---\n" + body` returns metadata whose only entry is
k = v, and a body equal to a line feed followed by `body`: everything after the
closing `---`, the line break of the delimiter line included. -/
theorem C7_frontmatter_round_trip (body : List Char) :
    ExtractFrontmatter ("---\n".toList ++ "k: v\n".toList ++ "---\n".toList ++ body) =
      (some [("k".toList, "v".toList)], '\n' :: body) ∧
    StrMap.get [("k".toList, "v".toList)] "k".toList = some "v".toList :=
  ⟨rfl, rfl⟩

/-- C8: an input that does not begin with `---\n`, or that begins with it but
holds no `\n---` after the opening delimiter, has no frontmatter:
`ExtractFrontmatter` returns the nil map and the input unchanged. -/
theorem C8_no_frontmatter (input : List Char)
    (h : HasPrefix input "---\n".toList = false ∨
      ¬ "\n---".toList <:+: input.drop 4) :
    ExtractFrontmatter input = (none, input) := by
  dsimp only [ExtractFrontmatter]
  cases hp : HasPrefix input "---\n".toList
  · rfl
  · rcases h with h | h
    · rw [hp] at h
      exact absurd h (by decide)
    · rw [Index_none_of_absent _ _ h]
      rfl

/-- C8 at work on `# No frontmatter\n` and on an unterminated block. -/
theorem C8_no_frontmatter_witness :
    ExtractFrontmatter "# No frontmatter\n".toList = (none, "# No frontmatter\n".toList) ∧
    ExtractFrontmatter "---\ntitle: x\n--".toList = (none, "---\ntitle: x\n--".toList) :=
  ⟨C8_no_frontmatter "# No frontmatter\n".toList (Or.inl (by decide)),
   C8_no_frontmatter "---\ntitle: x\n--".toList (Or.inr (by decide))⟩

/-- C9: when `ExtractFrontmatter` recognises a block (the input begins with
`---\n` and `\n---` occurs at offset `e` after it), the metadata maps `k` to `v`
exactly when `k` is not empty and the last line of the block that holds a colon
and whose text before the first colon trims to `k`, has text after that colon
that trims to `v`.  So lines without a colon and lines with an empty key give
no entry, and a later line with the same key overwrites an earlier one. -/
theorem C9_metadata_entries (input : List Char) (e : Nat)
    (hp : HasPrefix input "---\n".toList = true)
    (he : Index (input.drop 4) "\n---".toList = some e) :
    ∃ m : StrMap, (ExtractFrontmatter input).1 = some m ∧
      ∀ k v : List Char, m.get k = some v ↔
        (k ≠ [] ∧ ∃ line, lastLineFor k (Split '\n' ((input.drop 4).take e)) = some line ∧
          lineVal line = v) := by
  refine ⟨parseLines (Split '\n' ((input.drop 4).take e)) [], ?_, ?_⟩
  · unfold ExtractFrontmatter
    simp only [hp, Bool.not_true, Bool.false_eq_true, if_false, he]
  · intro k v
    by_cases hk : k = []
    · subst hk
      rw [parseLines_get_nil]
      constructor
      · intro h
        exact absurd h (by simp [StrMap.get])
      · intro h
        exact absurd rfl h.1
    · rw [parseLines_get k hk]
      cases hl : lastLineFor k (Split '\n' ((input.drop 4).take e)) with
      | none =>
        constructor
        · intro h
          exact absurd h (by simp [StrMap.get])
        · rintro ⟨_, line, h1, _⟩
          exact absurd h1 (by simp)
      | some line =>
        constructor
        · intro h
          exact ⟨hk, line, rfl, Option.some.inj h⟩
        · rintro ⟨_, line2, h1, h2⟩
          cases h1
          subst h2
          rfl

/-- C9 at work: of two `title` lines the later one gives the value, and the
line without a colon and the line with an empty key give no entry. -/
theorem C9_metadata_entries_witness :
    ∃ m : StrMap,
      (ExtractFrontmatter
        "---\ntitle: My Doc\nnote\n: x\ntitle : Other\n---\n# Hello\n".toList).1 = some m ∧
      m.get "title".toList = some "Other".toList :=
  match C9_metadata_entries
      "---\ntitle: My Doc\nnote\n: x\ntitle : Other\n---\n# Hello\n".toList 36
      (by decide) (by decide) with
  | ⟨m, hm, h⟩ => ⟨m, hm, (h "title".toList "Other".toList).2
      ⟨by decide, "title : Other".toList, by decide, by decide⟩⟩

/-! ## Table of contents: the claims -/

/-- C10 (the code breaks it): `ExtractTOC` should return one entry per ATX
heading line.  In `headingRe` the `\s+` also matches line feeds, so a line of
hash signs alone takes the next line as its heading text: `#\nIntro text\n` has
no ATX heading line but gives one entry, and in `# \n## B\n` the only heading
line `## B` is returned as the text of a level 1 entry.  The source of the
claim, `# Title\n## Section A\n### Sub A1\n## Section B\n`, gives its four
entries with levels 1, 2, 3, 2. -/
theorem C10_heading_spans_lines :
    ExtractTOC asciiLower "#\nIntro text\n".toList =
      [⟨1, "Intro text".toList, "intro-text".toList⟩] ∧
    atxLevels "#\nIntro text\n".toList = [] ∧
    ExtractTOC asciiLower "# \n## B\n".toList = [⟨1, "## B".toList, "b".toList⟩] ∧
    atxLevels "# \n## B\n".toList = [2] ∧
    (ExtractTOC asciiLower
      "# Title\n## Section A\n### Sub A1\n## Section B\n".toList).map TOCEntry.Level =
      [1, 2, 3, 2] ∧
    atxLevels "# Title\n## Section A\n### Sub A1\n## Section B\n".toList = [1, 2, 3, 2] := by
  decide

/-! ## Slugs and TOC entries: helper lemmas -/

/-- Trimming with `p` on both sides leaves no `p` at either end. -/
theorem trim_ends (p : Char → Bool) (s : List Char) :
    (∀ c, (((s.dropWhile p).reverse.dropWhile p).reverse).head? = some c → p c = false) ∧
    (∀ c, (((s.dropWhile p).reverse.dropWhile p).reverse).getLast? = some c → p c = false) := by
  constructor
  · intro c hc
    have hpre : ((s.dropWhile p).reverse.dropWhile p).reverse <+: s.dropWhile p :=
      List.rdropWhile_prefix p (s.dropWhile p)
    obtain ⟨t, ht⟩ := hpre
    cases hr : ((s.dropWhile p).reverse.dropWhile p).reverse with
    | nil => rw [hr] at hc; exact absurd hc (by simp)
    | cons a r =>
      rw [hr] at hc ht
      have hac : a = c := by simpa using hc
      have h := List.head?_dropWhile_not p s
      rw [← ht] at h
      simpa [hac] using h
  · intro c hc
    rw [List.getLast?_reverse] at hc
    have h := List.head?_dropWhile_not p (s.dropWhile p).reverse
    rw [hc] at h
    exact h

/-- Trimming keeps only characters of the text. -/
theorem mem_of_mem_trim (p : Char → Bool) (s : List Char) (c : Char)
    (h : c ∈ ((s.dropWhile p).reverse.dropWhile p).reverse) : c ∈ s := by
  rw [List.mem_reverse] at h
  have h1 := (List.dropWhile_sublist p).mem h
  rw [List.mem_reverse] at h1
  exact (List.dropWhile_sublist p).mem h1

theorem replaceSpaceRuns_alphabet : ∀ (b : Bool) (l : List Char),
    (∀ c ∈ l, slugChar c = true) → ∀ c ∈ replaceSpaceRuns b l, slugAlphabet c = true
  | _, [], _, c, hc => by simp [replaceSpaceRuns] at hc
  | b, a :: rest, hl, c, hc => by
    have ih := fun b2 => replaceSpaceRuns_alphabet b2 rest
      (fun x hx => hl x (List.mem_cons_of_mem a hx))
    rw [replaceSpaceRuns] at hc
    by_cases ha : reSpace a = true
    · rw [if_pos ha] at hc
      cases b with
      | true => exact ih true c (by simpa using hc)
      | false =>
        simp only [Bool.false_eq_true, if_false, List.mem_cons] at hc
        rcases hc with hc | hc
        · subst hc; decide
        · exact ih true c hc
    · rw [if_neg ha, List.mem_cons] at hc
      rcases hc with hc | hc
      · subst hc
        have hs := hl c (List.mem_cons_self c rest)
        have ha2 : reSpace c = false := by simpa using ha
        unfold slugChar at hs
        unfold slugAlphabet
        rw [ha2, Bool.or_false] at hs
        exact hs
      · exact ih false c hc

theorem slugify_mem_alphabet (lower : Char → Char) (s : List Char) (c : Char)
    (hc : c ∈ slugify lower s) : slugAlphabet c = true := by
  unfold slugify Trim at hc
  have h1 := mem_of_mem_trim _ _ c hc
  exact replaceSpaceRuns_alphabet false _ (fun x hx => (List.mem_filter.mp hx).2) c h1

theorem matchHashes_level (s : List Char) : ∀ (h : Nat) (r : Nat × List Char × Nat),
    matchHashes s h = some r → 1 ≤ r.1 ∧ r.1 ≤ h
  | 0, r, hr => by simp [matchHashes] at hr
  | h + 1, r, hr => by
    rw [matchHashes] at hr
    cases hm : matchSpaceText (s.drop (h + 1))
        ((s.drop (h + 1)).takeWhile reSpace).length with
    | some wt =>
      obtain ⟨w, t⟩ := wt
      rw [hm] at hr
      cases hr
      exact ⟨Nat.succ_le_succ (Nat.zero_le h), Nat.le_refl _⟩
    | none =>
      rw [hm] at hr
      have ih := matchHashes_level s h r hr
      exact ⟨ih.1, Nat.le_succ_of_le ih.2⟩

theorem findAllHeadings_level : ∀ (s : List Char) (k : Nat) (b : Bool) (m : Nat × List Char),
    m ∈ findAllHeadings k b s → 1 ≤ m.1 ∧ m.1 ≤ 6
  | [], k, b, m, hm => by simp [findAllHeadings] at hm
  | c :: rest, 0, true, m, hm => by
    rw [findAllHeadings] at hm
    cases hh : matchHeading (c :: rest) with
    | none =>
      rw [hh] at hm
      exact findAllHeadings_level rest _ _ m hm
    | some r =>
      obtain ⟨h, t, n⟩ := r
      rw [hh] at hm
      rcases List.mem_cons.mp hm with hm | hm
      · subst hm
        have hl := matchHashes_level _ _ _ hh
        exact ⟨hl.1, le_trans hl.2 (Nat.min_le_left _ _)⟩
      · exact findAllHeadings_level rest _ _ m hm
  | c :: rest, 0, false, m, hm => by
    rw [findAllHeadings] at hm
    exact findAllHeadings_level rest _ _ m hm
  | c :: rest, k + 1, b, m, hm => by
    rw [findAllHeadings] at hm
    exact findAllHeadings_level rest _ _ m hm

/-! ## Slugs and TOC entries: the claims -/

/-- C11: for every heading text (and every case mapping), `slugify` returns a
string made only of the characters a to z, 0 to 9 and the hyphen, which neither
begins nor ends with a hyphen; `Title` gives `title`, `Section A` gives
`section-a` and `Sub A1` gives `sub-a1`. -/
theorem C11_slugify_alphabet (lower : Char → Char) (s : List Char) :
    (slugify lower s).all slugAlphabet = true ∧
    (slugify lower s).head? ≠ some '-' ∧
    (slugify lower s).getLast? ≠ some '-' ∧
    slugify asciiLower "Title".toList = "title".toList ∧
    slugify asciiLower "Section A".toList = "section-a".toList ∧
    slugify asciiLower "Sub A1".toList = "sub-a1".toList := by
  refine ⟨?_, ?_, ?_, by decide, by decide, by decide⟩
  · rw [List.all_eq_true]
    exact fun c hc => slugify_mem_alphabet lower s c hc
  · intro h
    have := (trim_ends (fun c => "-".toList.contains c) _).1 '-' h
    exact absurd this (by decide)
  · intro h
    have := (trim_ends (fun c => "-".toList.contains c) _).2 '-' h
    exact absurd this (by decide)

/-- C11 at work on a heading with capitals, punctuation, an accent, runs of
white space and hyphens at both ends. -/
theorem C11_slugify_alphabet_witness :
    slugify asciiLower "- Héllo,   World! -".toList = "hllo-world".toList ∧
    (slugify asciiLower "- Héllo,   World! -".toList).all slugAlphabet = true :=
  ⟨by decide, (C11_slugify_alphabet asciiLower "- Héllo,   World! -".toList).1⟩

/-- C12: every entry that `ExtractTOC` returns has a level from 1 to 6, a text
that neither begins nor ends with white space, and an id that is `slugify` of
its own text; so any other entry with the same text has the same id. -/
theorem C12_toc_entry_well_formed (lower : Char → Char) (input : List Char)
    (e : TOCEntry) (he : e ∈ ExtractTOC lower input) :
    1 ≤ e.Level ∧ e.Level ≤ 6 ∧
    (∀ c, e.Text.head? = some c → isSpace c = false) ∧
    (∀ c, e.Text.getLast? = some c → isSpace c = false) ∧
    e.ID = slugify lower e.Text ∧
    (∀ e2 ∈ ExtractTOC lower input, e2.Text = e.Text → e2.ID = e.ID) := by
  have key : ∀ x ∈ ExtractTOC lower input,
      (1 ≤ x.Level ∧ x.Level ≤ 6) ∧
      ((∀ c, x.Text.head? = some c → isSpace c = false) ∧
        (∀ c, x.Text.getLast? = some c → isSpace c = false)) ∧
      x.ID = slugify lower x.Text := by
    intro x hx
    unfold ExtractTOC at hx
    obtain ⟨m, hm, rfl⟩ := List.mem_map.mp hx
    exact ⟨findAllHeadings_level input 0 true m hm, trim_ends isSpace m.2, rfl⟩
  obtain ⟨h1, h2, h3⟩ := key e he
  refine ⟨h1.1, h1.2, h2.1, h2.2, h3, ?_⟩
  intro e2 he2 ht
  rw [(key e2 he2).2.2, h3, ht]

/-- C12 at work: the two equal headings of `## A b \n###### A b\n` both get the
id `a-b`. -/
theorem C12_toc_entry_well_formed_witness :
    ExtractTOC asciiLower "## A b \n###### A b\n".toList =
      [⟨2, "A b".toList, "a-b".toList⟩, ⟨6, "A b".toList, "a-b".toList⟩] ∧
    (1 ≤ 2 ∧ 2 ≤ 6 ∧ "a-b".toList = slugify asciiLower "A b".toList) :=
  ⟨by decide,
   have h := C12_toc_entry_well_formed asciiLower "## A b \n###### A b\n".toList
     ⟨2, "A b".toList, "a-b".toList⟩ (by decide)
   ⟨h.1, h.2.1, h.2.2.2.2.1⟩⟩

/-! ## Fenced code blocks: helper lemmas -/

theorem fence_not_prefix_line (l rest : List Char) (h : plainLine l = true) :
    fence.isPrefixOf (l ++ '\n' :: rest) = false := by
  unfold plainLine at h
  simp only [Bool.and_eq_true, Bool.not_eq_true'] at h
  obtain ⟨hn, hf⟩ := h
  rcases l with _ | ⟨a, _ | ⟨b, _ | ⟨c, l⟩⟩⟩
  · rfl
  · simp only [List.contains_cons, Bool.or_eq_false_iff] at hn
    have : ('\n' == a) = false := hn.1
    by_cases ha : a = '`'
    · subst ha; rfl
    · have h2 : ('`' == a) = false := by
        simp only [beq_eq_false_iff_ne, ne_eq]; exact fun h => ha h.symm
      simp [fence, List.isPrefixOf, h2]
  · by_cases ha : a = '`'
    · by_cases hb : b = '`'
      · subst ha; subst hb; rfl
      · have h2 : ('`' == b) = false := by
          simp only [beq_eq_false_iff_ne, ne_eq]; exact fun h => hb h.symm
        simp [fence, List.isPrefixOf, h2]
    · have h2 : ('`' == a) = false := by
        simp only [beq_eq_false_iff_ne, ne_eq]; exact fun h => ha h.symm
      simp [fence, List.isPrefixOf, h2]
  · simpa [fence, List.isPrefixOf] using hf

theorem matchFence_none (s : List Char) (h : fence.isPrefixOf s = false) :
    matchFence s = none := by
  unfold matchFence
  rw [h]
  rfl

/-- Outside a match and off a line start, a line without line feed is passed. -/
theorem findAllFences_rest_of_line : ∀ (l rest : List Char), l.contains '\n' = false →
    findAllFences 0 false (l ++ '\n' :: rest) = findAllFences 0 true rest
  | [], rest, _ => by
    show findAllFences 0 false ('\n' :: rest) = _
    rw [findAllFences]
    rfl
  | c :: l, rest, h => by
    simp only [List.contains_cons, Bool.or_eq_false_iff] at h
    have hc : (c == '\n') = false := by
      have := h.1
      simp only [beq_eq_false_iff_ne, ne_eq] at this ⊢
      exact fun h => this h.symm
    show findAllFences 0 false (c :: (l ++ '\n' :: rest)) = _
    rw [findAllFences, hc]
    exact findAllFences_rest_of_line l rest h.2

/-- A plain line yields no match. -/
theorem findAllFences_plain_line (l rest : List Char) (h : plainLine l = true) :
    findAllFences 0 true (l ++ '\n' :: rest) = findAllFences 0 true rest := by
  have hf := fence_not_prefix_line l rest h
  have hn : l.contains '\n' = false := by
    unfold plainLine at h
    simp only [Bool.and_eq_true, Bool.not_eq_true'] at h
    exact h.1
  cases l with
  | nil =>
    show findAllFences 0 true ('\n' :: rest) = _
    rw [findAllFences, matchFence_none ('\n' :: rest) hf]
    rfl
  | cons c l =>
    simp only [List.contains_cons, Bool.or_eq_false_iff] at hn
    have hc : (c == '\n') = false := by
      have := hn.1
      simp only [beq_eq_false_iff_ne, ne_eq] at this ⊢
      exact fun h => this h.symm
    show findAllFences 0 true (c :: (l ++ '\n' :: rest)) = _
    rw [findAllFences, matchFence_none (c :: (l ++ '\n' :: rest)) hf, hc]
    exact findAllFences_rest_of_line l rest hn.2

theorem findAllFences_plain_lines : ∀ (ls : List (List Char)) (rest : List Char),
    ls.all plainLine = true →
    findAllFences 0 true (joinLines ls ++ rest) = findAllFences 0 true rest
  | [], rest, _ => rfl
  | l :: ls, rest, h => by
    simp only [List.all_cons, Bool.and_eq_true] at h
    show findAllFences 0 true ((l ++ '\n' :: joinLines ls) ++ rest) = _
    rw [List.append_assoc, List.cons_append, findAllFences_plain_line _ _ h.1]
    exact findAllFences_plain_lines ls rest h.2

/-- The characters of a match are passed without a new match. -/
theorem findAllFences_skip : ∀ (ys : List Char) (c : Char) (b : Bool) (rest : List Char),
    findAllFences (ys.length + 1) b (ys ++ c :: rest) = findAllFences 0 (c == '\n') rest
  | [], c, b, rest => by
    show findAllFences (0 + 1) b (c :: rest) = _
    rw [findAllFences]
  | y :: ys, c, b, rest => by
    show findAllFences (ys.length + 1 + 1) b (y :: (ys ++ c :: rest)) = _
    rw [findAllFences]
    exact findAllFences_skip ys c _ rest

theorem matchCode_rest_of_line : ∀ (l rest : List Char), l.contains '\n' = false →
    matchCode false (l ++ '\n' :: rest) =
      (matchCode true rest).map (fun code => l ++ '\n' :: code)
  | [], rest, _ => by
    show matchCode false ('\n' :: rest) = _
    rw [matchCode]
    rfl
  | c :: l, rest, h => by
    simp only [List.contains_cons, Bool.or_eq_false_iff] at h
    have hc : (c == '\n') = false := by
      have := h.1
      simp only [beq_eq_false_iff_ne, ne_eq] at this ⊢
      exact fun h => this h.symm
    show matchCode false (c :: (l ++ '\n' :: rest)) = _
    rw [matchCode, hc, matchCode_rest_of_line l rest h.2]
    cases matchCode true rest <;> rfl

theorem matchCode_plain_line (l rest : List Char) (h : plainLine l = true) :
    matchCode true (l ++ '\n' :: rest) =
      (matchCode true rest).map (fun code => l ++ '\n' :: code) := by
  have hf := fence_not_prefix_line l rest h
  have hn : l.contains '\n' = false := by
    unfold plainLine at h
    simp only [Bool.and_eq_true, Bool.not_eq_true'] at h
    exact h.1
  cases l with
  | nil =>
    have hf2 : fence.isPrefixOf ('\n' :: rest) = false := hf
    show matchCode true ('\n' :: rest) = _
    rw [matchCode, hf2]
    rfl
  | cons c l =>
    simp only [List.contains_cons, Bool.or_eq_false_iff] at hn
    have hc : (c == '\n') = false := by
      have := hn.1
      simp only [beq_eq_false_iff_ne, ne_eq] at this ⊢
      exact fun h => this h.symm
    have hf2 : fence.isPrefixOf (c :: (l ++ '\n' :: rest)) = false := hf
    show matchCode true (c :: (l ++ '\n' :: rest)) = _
    rw [matchCode, hf2, hc, matchCode_rest_of_line l _ hn.2]
    cases matchCode true rest <;> rfl

theorem matchCode_body : ∀ (body : List (List Char)) (rest : List Char),
    body.all plainLine = true →
    matchCode true (joinLines body ++ (fence ++ rest)) = some (joinLines body)
  | [], rest, _ => by simp [joinLines, fence, matchCode, List.isPrefixOf]
  | l :: body, rest, h => by
    simp only [List.all_cons, Bool.and_eq_true] at h
    show matchCode true ((l ++ '\n' :: joinLines body) ++ (fence ++ rest)) = _
    rw [List.append_assoc, List.cons_append, matchCode_plain_line _ _ h.1,
      matchCode_body body rest h.2]
    rfl

theorem takeWhile_lang : ∀ (lang rest : List Char), lang.all reWord = true →
    (lang ++ '\n' :: rest).takeWhile reWord = lang
  | [], rest, _ => rfl
  | c :: lang, rest, h => by
    simp only [List.all_cons, Bool.and_eq_true] at h
    show (c :: (lang ++ '\n' :: rest)).takeWhile reWord = _
    rw [List.takeWhile_cons, if_pos h.1, takeWhile_lang lang rest h.2]

theorem matchLang_of_at (s : List Char) (w : Nat) (r : List Char × List Char)
    (h : matchLangAt s w = some r) : matchLang s w = some r := by
  cases w with
  | zero => exact h
  | succ w => rw [matchLang, h]

theorem FencedBlock.text_length (f : FencedBlock) :
    f.text.length = 3 + f.lang.length + 1 + (joinLines f.body).length + 3 := by
  simp [FencedBlock.text, fence]
  omega

theorem matchFence_text (f : FencedBlock) (rest : List Char) (h : f.wellFormed = true) :
    matchFence (f.text ++ rest) =
      some (f.lang, joinLines f.body, f.text.length) := by
  unfold FencedBlock.wellFormed at h
  simp only [Bool.and_eq_true] at h
  have e1 : f.text ++ rest =
      '`' :: '`' :: '`' :: (f.lang ++ '\n' :: (joinLines f.body ++ (fence ++ rest))) := by
    simp [FencedBlock.text, fence]
  have hat : matchLangAt (f.lang ++ '\n' :: (joinLines f.body ++ (fence ++ rest)))
      f.lang.length = some (f.lang, joinLines f.body) := by
    unfold matchLangAt
    rw [List.drop_left]
    show Option.map _ (matchCode true (joinLines f.body ++ (fence ++ rest))) = _
    rw [matchCode_body _ _ h.2, List.take_left]
    rfl
  rw [e1, FencedBlock.text_length]
  unfold matchFence
  rw [if_pos (by simp [fence, List.isPrefixOf])]
  show (match matchLang (f.lang ++ '\n' :: (joinLines f.body ++ (fence ++ rest)))
      ((f.lang ++ '\n' :: (joinLines f.body ++ (fence ++ rest))).takeWhile reWord).length with
    | some (lang, code) => some (lang, code, 3 + lang.length + 1 + code.length + 3)
    | none => none) = _
  rw [takeWhile_lang _ _ h.1, matchLang_of_at _ _ _ hat]

/-- A well-formed fence at a line start is one match; the scan goes on right
after its closing backticks, off a line start. -/
theorem findAllFences_fence (f : FencedBlock) (rest : List Char) (h : f.wellFormed = true) :
    findAllFences 0 true (f.text ++ rest) =
      (f.lang, joinLines f.body) :: findAllFences 0 false rest := by
  have hm := matchFence_text f rest h
  have e1 : f.text ++ rest =
      '`' :: (('`' :: '`' :: (f.lang ++ '\n' :: (joinLines f.body ++ ['`', '`']))) ++
        '`' :: rest) := by
    simp [FencedBlock.text, fence]
  have e2 : f.text.length - 1 =
      ('`' :: '`' :: (f.lang ++ '\n' :: (joinLines f.body ++ ['`', '`']))).length + 1 := by
    rw [FencedBlock.text_length]
    simp
    omega
  rw [e1] at hm ⊢
  rw [findAllFences, hm]
  show (f.lang, joinLines f.body) :: findAllFences (f.text.length - 1) _ _ = _
  rw [e2, findAllFences_skip]
  rfl

theorem findAllFences_fencesText : ∀ (fs : List (FencedBlock × List (List Char)))
    (tail : List Char),
    fs.all (fun p => p.1.wellFormed && p.2.all plainLine) = true →
    findAllFences 0 true (fencesText fs ++ tail) =
      fs.map (fun p => (p.1.lang, joinLines p.1.body)) ++ findAllFences 0 true tail
  | [], _, _ => rfl
  | (f, sep) :: more, tail, h => by
    simp only [List.all_cons, Bool.and_eq_true] at h
    show findAllFences 0 true
      ((f.text ++ '\n' :: (joinLines sep ++ fencesText more)) ++ tail) = _
    rw [List.append_assoc, List.cons_append, List.append_assoc,
      findAllFences_fence f _ h.1.1]
    have e : findAllFences 0 false ('\n' :: (joinLines sep ++ (fencesText more ++ tail))) =
        findAllFences 0 true (joinLines sep ++ (fencesText more ++ tail)) := by
      rw [findAllFences]
      rfl
    rw [e, findAllFences_plain_lines sep _ h.1.2, findAllFences_fencesText more tail h.2]
    rfl

theorem findAllFences_fencedDoc (sep0 : List (List Char))
    (fs : List (FencedBlock × List (List Char))) (tail : List Char)
    (h : fencedDocOk sep0 fs = true) :
    findAllFences 0 true (fencedDoc sep0 fs ++ tail) =
      fs.map (fun p => (p.1.lang, joinLines p.1.body)) ++ findAllFences 0 true tail := by
  unfold fencedDocOk at h
  simp only [Bool.and_eq_true] at h
  unfold fencedDoc
  rw [List.append_assoc, findAllFences_plain_lines sep0 _ h.1,
    findAllFences_fencesText fs tail h.2]

/-- Where no line begins with three backticks, the lazy part finds no end. -/
theorem matchCode_none : ∀ (s : List Char) (b : Bool),
    ¬ ('\n' :: fence) <:+: s → (b = true → ¬ fence <+: s) → matchCode b s = none
  | [], _, _, _ => rfl
  | c :: rest, b, hi, hp => by
    have hcond : (b && fence.isPrefixOf (c :: rest)) = false := by
      cases b with
      | false => rfl
      | true =>
        cases hf : fence.isPrefixOf (c :: rest) with
        | false => rfl
        | true => exact absurd (List.isPrefixOf_iff_prefix.mp hf) (hp rfl)
    have hi2 : ¬ ('\n' :: fence) <:+: rest := fun h =>
      hi (h.trans (List.suffix_cons c rest).isInfix)
    have hp2 : (c == '\n') = true → ¬ fence <+: rest := by
      intro hc hpre
      have hc2 : c = '\n' := by simpa using hc
      subst hc2
      exact hi ((List.cons_prefix_cons.mpr ⟨rfl, hpre⟩).isInfix)
    rw [matchCode, hcond, matchCode_none rest _ hi2 hp2]
    rfl

/-- Where no line begins with three backticks, the scan finds no match. -/
theorem findAllFences_none : ∀ (s : List Char) (b : Bool),
    ¬ ('\n' :: fence) <:+: s → (b = true → ¬ fence <+: s) → findAllFences 0 b s = []
  | [], _, _, _ => by rw [findAllFences]
  | c :: rest, b, hi, hp => by
    have hi2 : ¬ ('\n' :: fence) <:+: rest := fun h =>
      hi (h.trans (List.suffix_cons c rest).isInfix)
    have hp2 : (c == '\n') = true → ¬ fence <+: rest := by
      intro hc hpre
      have hc2 : c = '\n' := by simpa using hc
      subst hc2
      exact hi ((List.cons_prefix_cons.mpr ⟨rfl, hpre⟩).isInfix)
    cases b with
    | false =>
      rw [findAllFences]
      exact findAllFences_none rest _ hi2 hp2
    | true =>
      have hf : fence.isPrefixOf (c :: rest) = false := by
        cases hf : fence.isPrefixOf (c :: rest) with
        | false => rfl
        | true => exact absurd (List.isPrefixOf_iff_prefix.mp hf) (hp rfl)
      rw [findAllFences, matchFence_none _ hf]
      exact findAllFences_none rest _ hi2 hp2

/-- A match of the part after the opening backticks ends in a match of the
lazy part at the start of some later line. -/
theorem matchLang_some (s : List Char) : ∀ (w : Nat) (r : List Char × List Char),
    matchLang s w = some r →
    ∃ (w2 : Nat) (rest : List Char), s.drop w2 = '\n' :: rest ∧ matchCode true rest = some r.2
  | w, r, h => by
    have hat : ∀ (w2 : Nat), matchLangAt s w2 = some r →
        ∃ rest : List Char, s.drop w2 = '\n' :: rest ∧ matchCode true rest = some r.2 := by
      intro w2 h2
      unfold matchLangAt at h2
      split at h2
      · rename_i rest heq
        cases hc : matchCode true rest with
        | none => rw [hc] at h2; exact absurd h2 (by simp)
        | some code =>
          rw [hc] at h2
          simp only [Option.map_some', Option.some.injEq] at h2
          exact ⟨rest, heq, by rw [← h2, hc]⟩
      · exact absurd h2 (by simp)
    cases w with
    | zero => exact ⟨0, hat 0 h⟩
    | succ w =>
      rw [matchLang] at h
      cases hm : matchLangAt s (w + 1) with
      | some r2 =>
        rw [hm] at h
        cases h
        exact ⟨w + 1, hat (w + 1) hm⟩
      | none =>
        rw [hm] at h
        exact matchLang_some s w r h

theorem matchFence_some (s : List Char) (r : List Char × List Char × Nat)
    (h : matchFence s = some r) :
    ∃ (w2 : Nat) (rest : List Char),
      (s.drop 3).drop w2 = '\n' :: rest ∧ matchCode true rest = some r.2.1 := by
  unfold matchFence at h
  split at h
  · cases hm : matchLang (s.drop 3) ((s.drop 3).takeWhile reWord).length with
    | none => rw [hm] at h; exact absurd h (by simp)
    | some lc =>
      obtain ⟨lang, code⟩ := lc
      rw [hm] at h
      cases h
      exact matchLang_some _ _ _ hm
  · exact absurd h (by simp)

/-- After three backticks at a line start with no later line that begins with
three backticks, there is no match. -/
theorem findAllFences_unterminated (tail : List Char)
    (hi : ¬ ('\n' :: fence) <:+: tail) :
    findAllFences 0 true (fence ++ tail) = [] := by
  have hm : matchFence ('`' :: '`' :: '`' :: tail) = none := by
    cases hm : matchFence ('`' :: '`' :: '`' :: tail) with
    | none => rfl
    | some r =>
      obtain ⟨w2, rest, hd, hc⟩ := matchFence_some _ r hm
      have hd2 : tail.drop w2 = '\n' :: rest := hd
      have hsuf : ('\n' :: rest) <:+ tail := by
        rw [← hd2]
        exact List.drop_suffix w2 tail
      have h1 : ¬ ('\n' :: fence) <:+: rest := fun h =>
        hi ((h.trans (List.suffix_cons '\n' rest).isInfix).trans hsuf.isInfix)
      have h2 : ¬ fence <+: rest := fun h =>
        hi (((List.cons_prefix_cons.mpr ⟨rfl, h⟩).isInfix).trans hsuf.isInfix)
      rw [matchCode_none rest true h1 (fun _ => h2)] at hc
      exact absurd hc (by simp)
  show findAllFences 0 true ('`' :: '`' :: '`' :: tail) = []
  rw [findAllFences, hm]
  show findAllFences 0 false ('`' :: '`' :: tail) = []
  rw [findAllFences]
  show findAllFences 0 false ('`' :: tail) = []
  rw [findAllFences]
  exact findAllFences_none tail _ hi (fun h => absurd h (by decide))

/-- The first line of a text has no line feed, and no later line begins with
three backticks: then no line after the first does. -/
theorem no_fence_line_after (info content : List Char) (hinfo : info.contains '\n' = false)
    (h1 : ¬ fence <+: content) (h2 : ¬ ('\n' :: fence) <:+: content) :
    ¬ ('\n' :: fence) <:+: (info ++ '\n' :: content) := by
  induction info with
  | nil =>
    intro h
    rcases List.infix_cons_iff.mp h with h | h
    · exact h1 (List.cons_prefix_cons.mp h).2
    · exact h2 h
  | cons c info ih =>
    simp only [List.contains_cons, Bool.or_eq_false_iff] at hinfo
    intro h
    rcases List.infix_cons_iff.mp h with h | h
    · have hc := (List.cons_prefix_cons.mp h).1
      have : ('\n' == c) = true := by rw [hc]; exact beq_self_eq_true c
      rw [hinfo.1] at this
      exact absurd this (by decide)
    · exact ih hinfo.2 h

theorem matchCode_prefix : ∀ (s : List Char) (b : Bool) (code : List Char),
    matchCode b s = some code → code <+: s
  | [], _, code, h => by simp [matchCode] at h
  | c :: rest, b, code, h => by
    rw [matchCode] at h
    split at h
    · cases h
      exact List.nil_prefix
    · cases hm : matchCode (c == '\n') rest with
      | none => rw [hm] at h; exact absurd h (by simp)
      | some code2 =>
        rw [hm] at h
        simp only [Option.map_some', Option.some.injEq] at h
        subst h
        exact List.cons_prefix_cons.mpr ⟨rfl, matchCode_prefix rest _ code2 hm⟩

/-- The code that the lazy part returns holds no line that begins with three
backticks. -/
theorem matchCode_no_fence_line : ∀ (s : List Char) (b : Bool) (code : List Char),
    matchCode b s = some code →
    (b = true → ¬ fence <+: code) ∧ ¬ ('\n' :: fence) <:+: code
  | [], _, code, h => by simp [matchCode] at h
  | c :: rest, b, code, h => by
    have hpre := matchCode_prefix _ _ _ h
    rw [matchCode] at h
    split at h
    · cases h
      constructor
      · intro _ hp
        have := hp.length_le
        simp [fence] at this
      · intro hi
        have := hi.length_le
        simp at this
    · rename_i hcond
      cases hm : matchCode (c == '\n') rest with
      | none => rw [hm] at h; exact absurd h (by simp)
      | some code2 =>
        rw [hm] at h
        simp only [Option.map_some', Option.some.injEq] at h
        subst h
        have ih := matchCode_no_fence_line rest _ code2 hm
        constructor
        · intro hb hp
          apply hcond
          rw [hb, Bool.true_and]
          exact List.isPrefixOf_iff_prefix.mpr (hp.trans hpre)
        · intro hi
          rcases List.infix_cons_iff.mp hi with hi | hi
          · have hc := List.cons_prefix_cons.mp hi
            exact ih.1 (by simp [← hc.1]) hc.2
          · exact ih.2 hi

theorem findAllFences_no_fence_line : ∀ (s : List Char) (k : Nat) (b : Bool)
    (m : List Char × List Char), m ∈ findAllFences k b s →
    ¬ fence <+: m.2 ∧ ¬ ('\n' :: fence) <:+: m.2
  | [], k, b, m, hm => by simp [findAllFences] at hm
  | c :: rest, 0, true, m, hm => by
    rw [findAllFences] at hm
    cases hh : matchFence (c :: rest) with
    | none =>
      rw [hh] at hm
      exact findAllFences_no_fence_line rest _ _ m hm
    | some r =>
      obtain ⟨lang, code, n⟩ := r
      rw [hh] at hm
      rcases List.mem_cons.mp hm with hm | hm
      · subst hm
        obtain ⟨w2, rest2, _, hc⟩ := matchFence_some _ _ hh
        have := matchCode_no_fence_line _ _ _ hc
        exact ⟨this.1 rfl, this.2⟩
      · exact findAllFences_no_fence_line rest _ _ m hm
  | c :: rest, 0, false, m, hm => by
    rw [findAllFences] at hm
    exact findAllFences_no_fence_line rest _ _ m hm
  | c :: rest, k + 1, b, m, hm => by
    rw [findAllFences] at hm
    exact findAllFences_no_fence_line rest _ _ m hm

/-! ## Fenced code blocks: the claims -/

/-- C13 as stated fails: on the input of the claim `ExtractCodeBlocks` returns
one block with language `python` and code `print('hi')\n`, but its line count
is 2, not 1: the code ends with the line feed of its line, and the count is the
number of line feeds plus one. -/
theorem C13_single_line_counts_two :
    ExtractCodeBlocks "```python\nprint('hi')\n```".toList =
      [⟨"python".toList, "print('hi')\n".toList, 2⟩] ∧
    (ExtractCodeBlocks "```python\nprint('hi')\n```".toList).map CodeBlock.LineCount ≠ [1] := by
  decide

/-- C13, amended: for a fenced block whose content is a single line (an opening
line of three backticks and a tag of word characters, one line that does not
begin with three backticks, a closing line of three backticks),
`ExtractCodeBlocks` returns exactly one block, with that tag, the line with its
line feed as code, and line count 2; so it does on the input of the claim. -/
theorem C13_single_line_block (lang line : List Char)
    (hlang : lang.all reWord = true) (hline : plainLine line = true) :
    ExtractCodeBlocks (fence ++ lang ++ '\n' :: (line ++ '\n' :: fence)) =
      [⟨lang, line ++ ['\n'], 2⟩] ∧
    ExtractCodeBlocks "```python\nprint('hi')\n```".toList =
      [⟨"python".toList, "print('hi')\n".toList, 2⟩] := by
  refine ⟨?_, by decide⟩
  have hwf : FencedBlock.wellFormed ⟨lang, [line]⟩ = true := by
    simp [FencedBlock.wellFormed, hlang, hline]
  have e : fence ++ lang ++ '\n' :: (line ++ '\n' :: fence) =
      FencedBlock.text ⟨lang, [line]⟩ ++ [] := by
    simp [FencedBlock.text, joinLines]
  have hcount : Count (line ++ ['\n']) '\n' = 1 := by
    have hn : line.contains '\n' = false := by
      unfold plainLine at hline
      simp only [Bool.and_eq_true, Bool.not_eq_true'] at hline
      exact hline.1
    have hz : line.count '\n' = 0 := by
      rw [List.count_eq_zero]
      intro hmem
      have : line.contains '\n' = true := by simpa using hmem
      rw [hn] at this
      exact absurd this (by decide)
    simp [Count, List.count_append, hz]
  unfold ExtractCodeBlocks
  rw [e, findAllFences_fence _ _ hwf]
  show [(⟨lang, joinLines [line], Count (joinLines [line]) '\n' + 1⟩ : CodeBlock)] = _
  have e2 : joinLines [line] = line ++ ['\n'] := rfl
  rw [e2, hcount]

/-- C13 (amended) at work on a block in `js`. -/
theorem C13_single_line_block_witness :
    ExtractCodeBlocks (fence ++ "js".toList ++ '\n' :: ("console.log('hi')".toList ++
      '\n' :: fence)) = [⟨"js".toList, "console.log('hi')".toList ++ ['\n'], 2⟩] :=
  (C13_single_line_block "js".toList "console.log('hi')".toList (by decide) (by decide)).1

/-- C14: a document made of well-terminated fences (opening line of three
backticks and a tag of word characters, body of complete lines none of which
begins with three backticks, closing line of three backticks), with complete
lines that do not begin with three backticks before, between and after them,
gives exactly one record per fence, in document order, with the tag of the
fence, its body verbatim as code, and the number of line feeds of that code
plus one as line count.  The same holds when the document ends right after the
closing backticks of a last fence. -/
theorem C14_well_terminated_fences (sep0 : List (List Char))
    (fs : List (FencedBlock × List (List Char))) (h : fencedDocOk sep0 fs = true) :
    ExtractCodeBlocks (fencedDoc sep0 fs) = fs.map (fun p => p.1.record) ∧
    (ExtractCodeBlocks (fencedDoc sep0 fs)).length = fs.length ∧
    (∀ f : FencedBlock, f.wellFormed = true →
      ExtractCodeBlocks (fencedDoc sep0 fs ++ f.text) =
        fs.map (fun p => p.1.record) ++ [f.record]) := by
  have h1 : ExtractCodeBlocks (fencedDoc sep0 fs) = fs.map (fun p => p.1.record) := by
    have := findAllFences_fencedDoc sep0 fs [] h
    rw [List.append_nil] at this
    unfold ExtractCodeBlocks
    rw [this]
    simp [findAllFences, FencedBlock.record, Count]
  refine ⟨h1, by rw [h1, List.length_map], ?_⟩
  intro f hf
  have := findAllFences_fencedDoc sep0 fs (f.text ++ []) h
  rw [findAllFences_fence f [] hf, List.append_nil] at this
  unfold ExtractCodeBlocks
  rw [this]
  simp [findAllFences, FencedBlock.record, Count]

/-- C14 at work on the document of the test, two fences with text between. -/
theorem C14_well_terminated_fences_witness :
    ExtractCodeBlocks
      "```python\nprint('hi')\n```\n\ntext\n\n```js\nconsole.log('hi')\n```\n".toList =
      [⟨"python".toList, "print('hi')\n".toList, 2⟩,
       ⟨"js".toList, "console.log('hi')\n".toList, 2⟩] :=
  (C14_well_terminated_fences []
    [(⟨"python".toList, ["print('hi')".toList]⟩, ["".toList, "text".toList, "".toList]),
     (⟨"js".toList, ["console.log('hi')".toList]⟩, [])] (by decide)).1

/-- C15: an unterminated fence yields no block.  For an input made of lines
that do not begin with three backticks, then one opening fence line (three
backticks and any text), then content in which no line begins with three
backticks, `ExtractCodeBlocks` returns the empty sequence; also when the text
ends within the opening fence line. -/
theorem C15_unterminated_fence (pre : List (List Char)) (info content : List Char)
    (hpre : pre.all plainLine = true) (hinfo : info.contains '\n' = false)
    (h1 : ¬ fence <+: content) (h2 : ¬ ('\n' :: fence) <:+: content) :
    ExtractCodeBlocks (joinLines pre ++ (fence ++ (info ++ '\n' :: content))) = [] ∧
    ExtractCodeBlocks (joinLines pre ++ (fence ++ info)) = [] := by
  have hinfo2 : ¬ ('\n' :: fence) <:+: info := by
    intro hi
    have hmem : '\n' ∈ info := hi.subset (List.mem_cons_self _ _)
    have : info.contains '\n' = true := by simpa using hmem
    rw [hinfo] at this
    exact absurd this (by decide)
  constructor
  · unfold ExtractCodeBlocks
    rw [findAllFences_plain_lines pre _ hpre,
      findAllFences_unterminated _ (no_fence_line_after info content hinfo h1 h2)]
    rfl
  · unfold ExtractCodeBlocks
    rw [findAllFences_plain_lines pre _ hpre, findAllFences_unterminated _ hinfo2]
    rfl

/-- C15 at work: text, then an opening fence that is never closed. -/
theorem C15_unterminated_fence_witness :
    ExtractCodeBlocks (joinLines ["Some text".toList] ++
      (fence ++ ("python".toList ++ '\n' :: "print('hi')\nmore `` text\n".toList))) = [] :=
  (C15_unterminated_fence ["Some text".toList] "python".toList
    "print('hi')\nmore `` text\n".toList (by decide) (by decide) (by decide) (by decide)).1

/-- C16: the code of every block that `ExtractCodeBlocks` returns holds no fence
line: it neither begins with three backticks nor holds a line feed that is
followed at once by three backticks. -/
theorem C16_code_without_fence_line (input : List Char) (blk : CodeBlock)
    (h : blk ∈ ExtractCodeBlocks input) :
    ¬ fence <+: blk.Code ∧ ¬ ('\n' :: fence) <:+: blk.Code := by
  unfold ExtractCodeBlocks at h
  obtain ⟨m, hm, rfl⟩ := List.mem_map.mp h
  exact findAllFences_no_fence_line input 0 true m hm

/-- C16 at work: the block of `` ```\na\n```js\nb\n```\n `` ends at the line
`` ```js ``, the first line after its opening that begins with three backticks. -/
theorem C16_code_without_fence_line_witness :
    ExtractCodeBlocks "```\na\n```js\nb\n```\n".toList = [⟨[], "a\n".toList, 2⟩] ∧
    (¬ fence <+: "a\n".toList ∧ ¬ ('\n' :: fence) <:+: "a\n".toList) :=
  ⟨by decide,
   C16_code_without_fence_line "```\na\n```js\nb\n```\n".toList ⟨[], "a\n".toList, 2⟩
     (by decide)⟩

/-! ## Render pipeline: helper lemmas -/

theorem len_eq_zero (s : List Char) : len s = 0 ↔ s = [] := by
  cases s with
  | nil => simp [len]
  | cons c rest =>
    have := Char.utf8Size_pos c
    simp [len]
    omega

theorem renderFailed_ne_exceeds (err : GoError) (m : Int) :
    renderFailed err ≠ exceedsMaximumSize m := by
  intro h
  have := congrArg GoError.Unwrap h
  simp [renderFailed, exceedsMaximumSize, GoError.Unwrap] at this

theorem render_of_convert (lower : Char → Char) (p : MarkdownParser) (input h : List Char)
    (hconv : p.md input = Except.ok h) :
    p.Render lower input = Except.ok
      { HTML := h,
        TOC := if p.opts.EnableTOC then some (ExtractTOC lower input) else none,
        Metadata := if lenMap (ExtractFrontmatter input).1 > 0 then
          (ExtractFrontmatter input).1 else none,
        CodeBlocks := some (ExtractCodeBlocks input) } := by
  unfold MarkdownParser.Render
  rw [hconv]
  by_cases ht : p.opts.EnableTOC = true <;>
    by_cases hm : lenMap (ExtractFrontmatter input).1 > 0 <;>
    simp [ht, hm]

/-! ## Render pipeline: the claims -/

/-- C17: for non-empty content and every configured maximum `m`, each of the
service's `Render`, `ExtractTOC` and `ExtractCodeBlocks` fails with the error
`input exceeds maximum size of m bytes` exactly when `m > 0` and the byte
length of the content is greater than `m`; so content of length `m` or less is
never rejected for size, and neither is any content when `m = 0`. -/
theorem C17_size_limit (lower : Char → Char)
    (ParseFragment : List Char → Except GoError (List Node))
    (s : MarkdownService) (req : RenderRequest) (hne : req.Content ≠ []) :
    (s.Render lower ParseFragment req = Except.error (exceedsMaximumSize s.maxInputSize) ↔
      (s.maxInputSize > 0 ∧ (len req.Content : Int) > s.maxInputSize)) ∧
    (s.ExtractTOC lower req.Content = Except.error (exceedsMaximumSize s.maxInputSize) ↔
      (s.maxInputSize > 0 ∧ (len req.Content : Int) > s.maxInputSize)) ∧
    (s.ExtractCodeBlocks req.Content = Except.error (exceedsMaximumSize s.maxInputSize) ↔
      (s.maxInputSize > 0 ∧ (len req.Content : Int) > s.maxInputSize)) ∧
    "exceeds maximum size".toList <:+: (exceedsMaximumSize s.maxInputSize).Error := by
  have hlen : ¬ len req.Content = 0 := fun h => hne ((len_eq_zero _).mp h)
  refine ⟨?_, ?_, ?_, ?_⟩
  · unfold MarkdownService.Render
    rw [if_neg hlen]
    by_cases hbig : s.maxInputSize > 0 ∧ (len req.Content : Int) > s.maxInputSize
    · rw [if_pos hbig]
      exact ⟨fun _ => hbig, fun _ => rfl⟩
    · rw [if_neg hbig]
      constructor
      · intro h
        exfalso
        cases hr : s.parser.Render lower req.Content with
        | error err =>
          rw [hr] at h
          exact renderFailed_ne_exceeds err _ (Except.error.inj h)
        | ok result =>
          rw [hr] at h
          by_cases hs : s.sanitize = true
          · simp [hs] at h
          · simp [hs] at h
      · intro h
        exact absurd h hbig
  · unfold MarkdownService.ExtractTOC
    rw [if_neg hlen]
    by_cases hbig : s.maxInputSize > 0 ∧ (len req.Content : Int) > s.maxInputSize
    · rw [if_pos hbig]
      exact ⟨fun _ => hbig, fun _ => rfl⟩
    · rw [if_neg hbig]
      exact ⟨fun h => by simp at h, fun h => absurd h hbig⟩
  · unfold MarkdownService.ExtractCodeBlocks
    rw [if_neg hlen]
    by_cases hbig : s.maxInputSize > 0 ∧ (len req.Content : Int) > s.maxInputSize
    · rw [if_pos hbig]
      exact ⟨fun _ => hbig, fun _ => rfl⟩
    · rw [if_neg hbig]
      exact ⟨fun h => by simp at h, fun h => absurd h hbig⟩
  · exact ⟨"input ".toList,
      " of ".toList ++ (toString s.maxInputSize).toList ++ " bytes".toList,
      by simp [exceedsMaximumSize, GoError.Error]⟩

/-- C17 at work with a maximum of 100 bytes: 101 bytes are rejected and 100 are
not. -/
theorem C17_size_limit_witness :
    MarkdownService.ExtractCodeBlocks
        ⟨⟨fun _ => Except.ok [], ⟨false, false, false, false, []⟩⟩, 100, false⟩
        (List.replicate 101 'x') = Except.error (exceedsMaximumSize 100) ∧
    ¬ (MarkdownService.ExtractCodeBlocks
        ⟨⟨fun _ => Except.ok [], ⟨false, false, false, false, []⟩⟩, 100, false⟩
        (List.replicate 100 'x') = Except.error (exceedsMaximumSize 100)) :=
  ⟨(C17_size_limit asciiLower (fun _ => Except.ok [])
      ⟨⟨fun _ => Except.ok [], ⟨false, false, false, false, []⟩⟩, 100, false⟩
      ⟨List.replicate 101 'x', [], ⟨false, false, false, false, []⟩⟩
      (by decide)).2.2.1.mpr ⟨by decide, by decide⟩,
   fun h => absurd ((C17_size_limit asciiLower (fun _ => Except.ok [])
      ⟨⟨fun _ => Except.ok [], ⟨false, false, false, false, []⟩⟩, 100, false⟩
      ⟨List.replicate 100 'x', [], ⟨false, false, false, false, []⟩⟩
      (by decide)).2.2.1.mp h).2 (by decide)⟩

/-- C18: empty content short-circuits for every service (any parser, any
sanitize flag, any maximum size): `Render` returns without error a result with
empty HTML and no TOC, metadata or code blocks, whatever the converter and the
sanitizer would do, and `ExtractTOC` and `ExtractCodeBlocks` return nil without
error. -/
theorem C18_empty_input (lower : Char → Char)
    (ParseFragment : List Char → Except GoError (List Node))
    (s : MarkdownService) (format : List Char) (options : RenderOptions) :
    s.Render lower ParseFragment ⟨[], format, options⟩ =
      Except.ok { HTML := [], TOC := none, Metadata := none, CodeBlocks := none } ∧
    s.ExtractTOC lower [] = Except.ok none ∧
    s.ExtractCodeBlocks [] = Except.ok none :=
  ⟨rfl, rfl, rfl⟩

/-- C19: for non-empty content within the limit on which the conversion gives
the HTML `h`, the service's `Render` returns `Sanitize(h)` as HTML when the
sanitize flag is set and `h` when it is not, and the TOC, the metadata and the
code blocks are the same in both cases: those of the parser's result. -/
theorem C19_sanitize_only_html (lower : Char → Char)
    (ParseFragment : List Char → Except GoError (List Node))
    (parser : MarkdownParser) (max : Int) (req : RenderRequest) (h : List Char)
    (hne : req.Content ≠ [])
    (hfit : ¬ (max > 0 ∧ (len req.Content : Int) > max))
    (hconv : parser.md req.Content = Except.ok h) :
    ∃ r : RenderResult, parser.Render lower req.Content = Except.ok r ∧ r.HTML = h ∧
      MarkdownService.Render lower ParseFragment ⟨parser, max, true⟩ req =
        Except.ok
          { HTML := SanitizeString lower ParseFragment h, TOC := r.TOC,
            Metadata := r.Metadata, CodeBlocks := r.CodeBlocks } ∧
      MarkdownService.Render lower ParseFragment ⟨parser, max, false⟩ req =
        Except.ok
          { HTML := h, TOC := r.TOC, Metadata := r.Metadata, CodeBlocks := r.CodeBlocks } := by
  have hlen : ¬ len req.Content = 0 := fun h => hne ((len_eq_zero _).mp h)
  have hr := render_of_convert lower parser req.Content h hconv
  refine ⟨_, hr, rfl, ?_, ?_⟩
  · unfold MarkdownService.Render
    rw [if_neg hlen]
    simp only [hr]
    rw [if_neg hfit]
    rfl
  · unfold MarkdownService.Render
    rw [if_neg hlen]
    simp only [hr]
    rw [if_neg hfit]
    rfl

/-- C19 at work: with the sanitize flag the `script` of the converted HTML is
gone, without it the HTML is as converted; the TOC is the same. -/
theorem C19_sanitize_only_html_witness :
    ∃ r : RenderResult, exampleParser.Render asciiLower "# hi\n".toList = Except.ok r ∧
      r.HTML = "<p>hi</p><script>x</script>".toList ∧
      MarkdownService.Render asciiLower exampleParseFragment ⟨exampleParser, 0, true⟩
          ⟨"# hi\n".toList, [], exampleParser.opts⟩ =
        Except.ok
          { HTML := SanitizeString asciiLower exampleParseFragment
              "<p>hi</p><script>x</script>".toList,
            TOC := r.TOC, Metadata := r.Metadata, CodeBlocks := r.CodeBlocks } ∧
      MarkdownService.Render asciiLower exampleParseFragment ⟨exampleParser, 0, false⟩
          ⟨"# hi\n".toList, [], exampleParser.opts⟩ =
        Except.ok
          { HTML := "<p>hi</p><script>x</script>".toList,
            TOC := r.TOC, Metadata := r.Metadata, CodeBlocks := r.CodeBlocks } :=
  C19_sanitize_only_html asciiLower exampleParseFragment exampleParser 0
    ⟨"# hi\n".toList, [], exampleParser.opts⟩ "<p>hi</p><script>x</script>".toList
    (by decide) (by decide) rfl

/-- C20: when the conversion of `input` succeeds, the parser's `Render` returns
the code blocks `ExtractCodeBlocks(input)`, the TOC `ExtractTOC(input)` when
`EnableTOC` is set and none when it is not, and as metadata the map of
`ExtractFrontmatter(input)` when it has at least one key and none otherwise:
all taken from the input, none from the HTML. -/
theorem C20_structure_from_source (lower : Char → Char) (p : MarkdownParser)
    (input h : List Char) (hconv : p.md input = Except.ok h) :
    ∃ r : RenderResult, p.Render lower input = Except.ok r ∧ r.HTML = h ∧
      r.CodeBlocks = some (ExtractCodeBlocks input) ∧
      r.TOC = (if p.opts.EnableTOC then some (ExtractTOC lower input) else none) ∧
      r.Metadata =
        (match (ExtractFrontmatter input).1 with
         | some m => if m.length > 0 then some m else none
         | none => none) := by
  refine ⟨_, render_of_convert lower p input h hconv, rfl, rfl, rfl, ?_⟩
  show (if lenMap (ExtractFrontmatter input).1 > 0 then (ExtractFrontmatter input).1
    else none) = _
  cases (ExtractFrontmatter input).1 with
  | none => rfl
  | some m => rfl

/-- C20 at work on `---\ntitle: T\n---\n# H\n`: one TOC entry, the metadata
title = T, no code block. -/
theorem C20_structure_from_source_witness :
    ∃ r : RenderResult,
      exampleParser.Render asciiLower "---\ntitle: T\n---\n# H\n".toList = Except.ok r ∧
      r.CodeBlocks = some [] ∧
      r.TOC = some [⟨1, "H".toList, "h".toList⟩] ∧
      r.Metadata = some [("title".toList, "T".toList)] :=
  match C20_structure_from_source asciiLower exampleParser
      "---\ntitle: T\n---\n# H\n".toList "<p>hi</p><script>x</script>".toList rfl with
  | ⟨r, hr, _, hc, ht, hm⟩ =>
    ⟨r, hr, hc.trans (by decide), ht.trans (by decide), hm.trans (by decide)⟩

/-- C21: for non-empty content within the limit on which the conversion fails
with the error `e`, the service's `Render` returns no result but the error
`render failed: ` followed by the message of `e`, which wraps `e`; the
sanitizer is not run: the outcome is the same for every sanitize flag and
every fragment parser. -/
theorem C21_conversion_failure (lower : Char → Char)
    (ParseFragment : List Char → Except GoError (List Node))
    (s : MarkdownService) (req : RenderRequest) (e : GoError)
    (hne : req.Content ≠ [])
    (hfit : ¬ (s.maxInputSize > 0 ∧ (len req.Content : Int) > s.maxInputSize))
    (hconv : s.parser.md req.Content = Except.error e) :
    s.Render lower ParseFragment req = Except.error (renderFailed e) ∧
    (renderFailed e).Unwrap = some e ∧
    (renderFailed e).Error = "render failed: ".toList ++ e.Error ∧
    (∀ (ParseFragment2 : List Char → Except GoError (List Node)) (flag : Bool),
      MarkdownService.Render lower ParseFragment2 ⟨s.parser, s.maxInputSize, flag⟩ req =
        Except.error (renderFailed e)) := by
  have hlen : ¬ len req.Content = 0 := fun h => hne ((len_eq_zero _).mp h)
  have hr : s.parser.Render lower req.Content = Except.error e := by
    unfold MarkdownParser.Render
    rw [hconv]
  refine ⟨?_, rfl, rfl, ?_⟩
  · unfold MarkdownService.Render
    rw [if_neg hlen, if_neg hfit]
    simp only [hr]
  · intro ParseFragment2 flag
    unfold MarkdownService.Render
    rw [if_neg hlen, if_neg hfit]
    simp only [hr]

/-- C21 at work: a converter that fails with `boom` gives the error
`render failed: boom`. -/
theorem C21_conversion_failure_witness :
    MarkdownService.Render asciiLower exampleParseFragment ⟨failingParser, 100, true⟩
        ⟨"# hi\n".toList, [], failingParser.opts⟩ =
      Except.error (renderFailed (GoError.mk "boom".toList none)) ∧
    (renderFailed (GoError.mk "boom".toList none)).Error = "render failed: boom".toList :=
  ⟨(C21_conversion_failure asciiLower exampleParseFragment ⟨failingParser, 100, true⟩
      ⟨"# hi\n".toList, [], failingParser.opts⟩ (GoError.mk "boom".toList none)
      (by decide) (by decide) rfl).1, by decide⟩

/-! ## Shape of the extracted code -/

/-- The code that the lazy part returns is empty (when it starts at a line
start) or ends with a line feed. -/
theorem matchCode_ends : ∀ (s : List Char) (b : Bool) (code : List Char),
    matchCode b s = some code → (code = [] ∧ b = true) ∨ code.getLast? = some '\n'
  | [], _, code, h => by simp [matchCode] at h
  | c :: rest, b, code, h => by
    rw [matchCode] at h
    split at h
    · rename_i hcond
      cases h
      left
      simp only [Bool.and_eq_true] at hcond
      exact ⟨rfl, hcond.1⟩
    · cases hm : matchCode (c == '\n') rest with
      | none => rw [hm] at h; exact absurd h (by simp)
      | some code2 =>
        rw [hm] at h
        simp only [Option.map_some', Option.some.injEq] at h
        subst h
        right
        rcases matchCode_ends rest _ code2 hm with ⟨h1, h2⟩ | h1
        · subst h1
          have hc : c = '\n' := by simpa using h2
          rw [hc]
          rfl
        · cases code2 with
          | nil => exact absurd h1 (by simp)
          | cons d code3 => rw [List.getLast?_cons_cons]; exact h1

theorem findAllFences_code_ends : ∀ (s : List Char) (k : Nat) (b : Bool)
    (m : List Char × List Char), m ∈ findAllFences k b s →
    m.2 = [] ∨ m.2.getLast? = some '\n'
  | [], k, b, m, hm => by simp [findAllFences] at hm
  | c :: rest, 0, true, m, hm => by
    rw [findAllFences] at hm
    cases hh : matchFence (c :: rest) with
    | none =>
      rw [hh] at hm
      exact findAllFences_code_ends rest _ _ m hm
    | some r =>
      obtain ⟨lang, code, n⟩ := r
      rw [hh] at hm
      rcases List.mem_cons.mp hm with hm | hm
      · subst hm
        obtain ⟨w2, rest2, _, hc⟩ := matchFence_some _ _ hh
        rcases matchCode_ends _ _ _ hc with h1 | h1
        · exact Or.inl h1.1
        · exact Or.inr h1
      · exact findAllFences_code_ends rest _ _ m hm
  | c :: rest, 0, false, m, hm => by
    rw [findAllFences] at hm
    exact findAllFences_code_ends rest _ _ m hm
  | c :: rest, k + 1, b, m, hm => by
    rw [findAllFences] at hm
    exact findAllFences_code_ends rest _ _ m hm

/-- C22: the code of every block that `ExtractCodeBlocks` returns is empty or
ends with a line feed; so its line count is at least 1, and it is 1 exactly
when the code is empty. -/
theorem C22_code_ends_with_newline (input : List Char) (blk : CodeBlock)
    (h : blk ∈ ExtractCodeBlocks input) :
    (blk.Code = [] ∨ blk.Code.getLast? = some '\n') ∧
    1 ≤ blk.LineCount ∧
    (blk.LineCount = 1 ↔ blk.Code = []) := by
  unfold ExtractCodeBlocks at h
  obtain ⟨m, hm, rfl⟩ := List.mem_map.mp h
  have hends := findAllFences_code_ends input 0 true m hm
  refine ⟨hends, Nat.le_add_left 1 _, ?_⟩
  show Count m.2 '\n' + 1 = 1 ↔ m.2 = []
  constructor
  · intro hc
    have hz : m.2.count '\n' = 0 := by
      unfold Count at hc
      omega
    rcases hends with h1 | h1
    · exact h1
    · exfalso
      have hmem : '\n' ∈ m.2 := List.mem_of_getLast?_eq_some h1
      exact (List.count_eq_zero.mp hz) hmem
  · intro h1
    rw [h1]
    rfl

/-- C22 at work: an empty block has line count 1, a block of two lines ends
with a line feed and has line count 3. -/
theorem C22_code_ends_with_newline_witness :
    ExtractCodeBlocks "```\n```\n```go\na\nb\n```\n".toList =
      [⟨[], [], 1⟩, ⟨"go".toList, "a\nb\n".toList, 3⟩] ∧
    ("a\nb\n".toList = [] ∨ "a\nb\n".toList.getLast? = some '\n') :=
  ⟨by decide,
   (C22_code_ends_with_newline "```\n```\n```go\na\nb\n```\n".toList
      ⟨"go".toList, "a\nb\n".toList, 3⟩ (by decide)).1⟩

/-- C23: the service's `Render` reads only the content of the request: two
requests with the same content give the same outcome for every service,
whatever their options and format; so a request cannot switch the sanitizer or
the TOC on or off. -/
theorem C23_request_options_ignored (lower : Char → Char)
    (ParseFragment : List Char → Except GoError (List Node))
    (s : MarkdownService) (req1 req2 : RenderRequest)
    (h : req1.Content = req2.Content) :
    s.Render lower ParseFragment req1 = s.Render lower ParseFragment req2 := by
  unfold MarkdownService.Render
  rw [h]

/-- C23 at work: a request that asks for no sanitizing and no TOC gets the
result of a request that asks for both. -/
theorem C23_request_options_ignored_witness :
    MarkdownService.Render asciiLower exampleParseFragment ⟨exampleParser, 0, true⟩
        ⟨"# hi\n".toList, "html".toList, ⟨false, false, false, false, []⟩⟩ =
      MarkdownService.Render asciiLower exampleParseFragment ⟨exampleParser, 0, true⟩
        ⟨"# hi\n".toList, "ast".toList, ⟨true, true, true, true, "monokai".toList⟩⟩ :=
  C23_request_options_ignored asciiLower exampleParseFragment ⟨exampleParser, 0, true⟩
    ⟨"# hi\n".toList, "html".toList, ⟨false, false, false, false, []⟩⟩
    ⟨"# hi\n".toList, "ast".toList, ⟨true, true, true, true, "monokai".toList⟩⟩ rfl

/-! ## Slice bounds of the frontmatter splitter: helper lemmas -/

/-- The offset that `Index` returns is that of the first occurrence. -/
theorem Index_some (sep : List Char) : ∀ (s : List Char) (e : Nat),
    Index s sep = some e → sep <+: s.drop e ∧ ∀ j, j < e → ¬ sep <+: s.drop j
  | [], e, h => by
    rw [Index] at h
    split at h
    · rename_i hs
      cases h
      have : sep = [] := by simpa using hs
      subst this
      exact ⟨List.nil_prefix, fun j hj => absurd hj (Nat.not_lt_zero j)⟩
    · exact absurd h (by simp)
  | c :: rest, e, h => by
    rw [Index] at h
    split at h
    · rename_i hp
      cases h
      exact ⟨List.isPrefixOf_iff_prefix.mp hp, fun j hj => absurd hj (Nat.not_lt_zero j)⟩
    · rename_i hp
      cases hi : Index rest sep with
      | none => rw [hi] at h; exact absurd h (by simp)
      | some e2 =>
        rw [hi] at h
        simp only [Option.map_some', Option.some.injEq] at h
        subst h
        have ih := Index_some sep rest e2 hi
        refine ⟨ih.1, ?_⟩
        intro j hj
        cases j with
        | zero => exact fun hpre => hp (List.isPrefixOf_iff_prefix.mpr hpre)
        | succ j => exact ih.2 j (Nat.lt_of_succ_lt_succ hj)

theorem len_append (a b : List Char) : len (a ++ b) = len a + len b := by
  simp [len]

/-- The shape of an input in which `ExtractFrontmatter` finds a block. -/
theorem frontmatter_shape (input : List Char) (e : Nat)
    (hp : HasPrefix input "---\n".toList = true)
    (he : Index (input.drop 4) "\n---".toList = some e) :
    ∃ rest : List Char,
      input = "---\n".toList ++ ((input.drop 4).take e ++ ("\n---".toList ++ rest)) ∧
      ((input.drop 4).take e).length = e := by
  obtain ⟨t, ht⟩ := List.isPrefixOf_iff_prefix.mp hp
  have hd : input.drop 4 = t := by
    rw [← ht]
    rfl
  rw [hd] at he ⊢
  obtain ⟨rest, hrest⟩ := (Index_some _ t e he).1
  have hlen : e ≤ t.length := by
    by_contra hgt
    have : t.drop e = [] := List.drop_eq_nil_of_le (by omega)
    rw [this] at hrest
    exact absurd hrest (by simp)
  refine ⟨rest, ?_, ?_⟩
  · rw [hrest, List.take_append_drop, ht]
  · rw [List.length_take]
    omega

theorem frontmatter_found (input : List Char) (e : Nat)
    (hp : HasPrefix input "---\n".toList = true)
    (he : Index (input.drop 4) "\n---".toList = some e) :
    ExtractFrontmatterChecked input = some (ExtractFrontmatter input) ∧
    e + 8 ≤ input.length ∧
    (ExtractFrontmatter input).2 = input.drop (e + 8) ∧
    len (input.take (e + 8)) = len ((input.drop 4).take e) + 8 := by
  obtain ⟨rest, hshape, hblock⟩ := frontmatter_shape input e hp he
  have hlen : e + 8 ≤ input.length := by
    have := congrArg List.length hshape
    simp only [List.length_append, hblock] at this
    have h4 : "---\n".toList.length = 4 := rfl
    have h5 : "\n---".toList.length = 4 := rfl
    omega
  have hbody : (ExtractFrontmatter input).2 = input.drop (e + 8) := by
    unfold ExtractFrontmatter
    simp only [hp, Bool.not_true, Bool.false_eq_true, if_false, he]
    congr 1
    omega
  refine ⟨?_, hlen, hbody, ?_⟩
  · unfold ExtractFrontmatterChecked
    have h1 : sliceFrom input 4 = some (input.drop 4) := by
      unfold sliceFrom
      rw [if_pos (by omega)]
    have h2 : slice input 4 (4 + e) = some ((input.drop 4).take e) := by
      unfold slice
      rw [if_pos ⟨by omega, by omega⟩, List.take_drop]
    have h3 : sliceFrom input (4 + e + 4) = some (input.drop (4 + e + 4)) := by
      unfold sliceFrom
      rw [if_pos (by omega)]
    simp only [hp, Bool.not_true, Bool.false_eq_true, if_false, h1, he, h2, h3]
    unfold ExtractFrontmatter
    simp only [hp, Bool.not_true, Bool.false_eq_true, if_false, he]
  · have htake : input.take (e + 8) =
        "---\n".toList ++ ((input.drop 4).take e ++ "\n---".toList) := by
      have h8 : e + 8 = ("---\n".toList ++ ((input.drop 4).take e ++ "\n---".toList)).length := by
        simp only [List.length_append, hblock]
        have h4 : "---\n".toList.length = 4 := rfl
        have h5 : "\n---".toList.length = 4 := rfl
        omega
      conv_lhs => rw [hshape]
      rw [h8]
      have hassoc : "---\n".toList ++ ((input.drop 4).take e ++ ("\n---".toList ++ rest)) =
          ("---\n".toList ++ ((input.drop 4).take e ++ "\n---".toList)) ++ rest := by
        simp only [List.append_assoc]
      generalize (input.drop 4).take e = block at hassoc ⊢
      rw [hassoc, List.take_left]
    rw [htake, len_append, len_append]
    have h4 : len "---\n".toList = 4 := by decide
    have h5 : len "\n---".toList = 4 := by decide
    omega

/-! ## Slice bounds of the frontmatter splitter: the claim -/

/-- C24: `ExtractFrontmatter` never panics: with the bounds checks of its slice
expressions it returns the same results for every input.  The returned body is
a suffix of the input: the whole input when no frontmatter is found (nil
metadata), otherwise the input after its first `e + 8` characters, which are
`e + 8` bytes when `e` is counted in bytes, where `e` is the offset of the
first `\n---` in the input after its first 4 bytes. -/
theorem C24_frontmatter_bounds (input : List Char) :
    ExtractFrontmatterChecked input = some (ExtractFrontmatter input) ∧
    (ExtractFrontmatter input).2 <:+ input ∧
    ((ExtractFrontmatter input).1 = none → (ExtractFrontmatter input).2 = input) ∧
    (∀ m : StrMap, (ExtractFrontmatter input).1 = some m →
      ∃ e : Nat, HasPrefix input "---\n".toList = true ∧
        "\n---".toList <+: (input.drop 4).drop e ∧
        (∀ j, j < e → ¬ "\n---".toList <+: (input.drop 4).drop j) ∧
        e + 8 ≤ input.length ∧
        (ExtractFrontmatter input).2 = input.drop (e + 8) ∧
        len (input.take (e + 8)) = len ((input.drop 4).take e) + 8) := by
  cases hp : HasPrefix input "---\n".toList with
  | false =>
    have h1 : ExtractFrontmatter input = (none, input) := by
      unfold ExtractFrontmatter
      simp only [hp, Bool.not_false, if_true]
    have h2 : ExtractFrontmatterChecked input = some (none, input) := by
      unfold ExtractFrontmatterChecked
      simp only [hp, Bool.not_false, if_true]
    rw [h1, h2]
    exact ⟨rfl, List.suffix_refl input, fun _ => rfl, fun m hm => absurd hm (by simp)⟩
  | true =>
    cases he : Index (input.drop 4) "\n---".toList with
    | none =>
      have h1 : ExtractFrontmatter input = (none, input) := by
        unfold ExtractFrontmatter
        simp only [hp, Bool.not_true, Bool.false_eq_true, if_false, he]
      have h4 : 4 ≤ input.length := by
        have := (List.isPrefixOf_iff_prefix.mp hp).length_le
        exact this
      have h2 : ExtractFrontmatterChecked input = some (none, input) := by
        unfold ExtractFrontmatterChecked
        have hs : sliceFrom input 4 = some (input.drop 4) := by
          unfold sliceFrom
          rw [if_pos h4]
        simp only [hp, Bool.not_true, Bool.false_eq_true, if_false, hs, he]
      rw [h1, h2]
      exact ⟨rfl, List.suffix_refl input, fun _ => rfl, fun m hm => absurd hm (by simp)⟩
    | some e =>
      obtain ⟨hc, hlen, hbody, hbytes⟩ := frontmatter_found input e hp he
      have hfirst := Index_some _ _ e he
      refine ⟨hc, ?_, ?_, ?_⟩
      · rw [hbody]
        exact List.drop_suffix _ _
      · intro hnone
        exfalso
        unfold ExtractFrontmatter at hnone
        simp only [hp, Bool.not_true, Bool.false_eq_true, if_false, he] at hnone
        exact absurd hnone (by simp)
      · intro m _
        exact ⟨e, rfl, hfirst.1, hfirst.2, hlen, hbody, hbytes⟩

/-- C24 at work on `---\nclé: v\n---\nbody`: the first `\n---` after the first
4 bytes is at character 6, byte 7; the body is the input after its first 14
characters, which are 15 bytes. -/
theorem C24_frontmatter_bounds_witness :
    ExtractFrontmatterChecked "---\nclé: v\n---\nbody".toList =
      some (some [("clé".toList, "v".toList)], "\nbody".toList) ∧
    "---\nclé: v\n---\nbody".toList.drop (6 + 8) = "\nbody".toList ∧
    len ("---\nclé: v\n---\nbody".toList.take (6 + 8)) = 7 + 8 :=
  ⟨(C24_frontmatter_bounds "---\nclé: v\n---\nbody".toList).1.trans (by decide),
   by decide, by decide⟩

end Markdown
